import Mathlib

/-!
Shallow embedding of the `hugotranslationstudy` core:
the Hugo-shortcode → Markdoc converter (`internal/tomarkdoc/tomarkdoc.go`),
the Pig Latin translator (`internal/piglatin/piglatin.go`) and the
byte-span splice engine (`translateBodyUsingRanges` in the round-trip driver).

Strings of the Go source are modelled as `List Char` (the converter and the
Pig Latin code operate on runes/ASCII); the splice engine, whose offsets are
byte offsets and whose validity check is `utf8.Valid`, is modelled over byte
lists (`List Nat`).  Go slice expressions `s[a:b]` are modelled by the total
function `seg` which agrees with Go whenever `a ≤ b ≤ len s` (the only cases
the verified code paths exercise).  Literal braces in string literals are
written with the escapes \x7b and \x7d.
-/

/-- `seg s a b` models the Go slice expression `s[a:b]`. -/
def seg {α : Type} (s : List α) (a b : Nat) : List α :=
  (s.take b).drop a

/-- Boolean prefix test, models `strings.HasPrefix` / substring matching. -/
def isPre : List Char → List Char → Bool
  | [], _ => true
  | _ :: _, [] => false
  | a :: as, b :: bs => a = b && isPre as bs

/-- Whitespace as trimmed by `strings.TrimSpace` / split on by `strings.Fields`
(the Latin-1 range of Go's `unicode.IsSpace`). -/
def isSpaceGo (c : Char) : Bool :=
  c = ' ' || c = '\t' || c = '\n' || c = '\x0b' || c = '\x0c' || c = '\r' ||
  c = '\x85' || c = '\xa0'

/-- Models `strings.TrimSpace`. -/
def trimSpace (s : List Char) : List Char :=
  ((s.dropWhile isSpaceGo).reverse.dropWhile isSpaceGo).reverse

/-- `splitRunsAux keep s acc`: the maximal runs of `keep`-characters of `s`,
with `acc` the (reversed) run currently being read.  `splitRuns` models both
`strings.Fields` (with `keep = not ∘ isSpaceGo`) and
`strings.FieldsFunc s (fun r => !unicode.IsLetter r)` (with `keep = isLetterGo`). -/
def splitRunsAux (keep : Char → Bool) : List Char → List Char → List (List Char)
  | [], acc => if acc.isEmpty then [] else [acc.reverse]
  | c :: rest, acc =>
    if keep c then splitRunsAux keep rest (c :: acc)
    else if acc.isEmpty then splitRunsAux keep rest []
    else acc.reverse :: splitRunsAux keep rest []

/-- Maximal runs of `keep`-characters, in order. -/
def splitRuns (keep : Char → Bool) (s : List Char) : List (List Char) :=
  splitRunsAux keep s []

/-- Models `strings.Fields`. -/
def fieldsGo (s : List Char) : List (List Char) :=
  splitRuns (fun c => !isSpaceGo c) s

/-- `Tok` mirrors the `Tok` struct of tomarkdoc.go: a pageparser item kind
(as the string `item.Type.String()` produces), its raw value and its
half-open byte range in the body.  The Go field `End` is named `stop`
(`end` is a Lean keyword). -/
structure Tok where
  typ : String
  val : List Char
  start : Nat
  stop : Nat

/-- Default token used by the total array-indexing model `List.getD`. -/
def dTok : Tok := ⟨"", [], 0, 0⟩

/-- Models `isLeftDelim` of tomarkdoc.go. -/
def isLeftDelim (typ : String) : Bool :=
  typ = "tLeftDelimScNoMarkup" || typ = "tLeftDelimScWithMarkup"

/-- Models `isRightDelim` of tomarkdoc.go. -/
def isRightDelim (typ : String) : Bool :=
  typ = "tRightDelimScNoMarkup" || typ = "tRightDelimScWithMarkup"

/-- Length of the longest prefix of `l` holding no right delimiter: the
number of steps the scan loop `for j < len(toks) && !isRightDelim(toks[j].Typ)`
performs on the remaining tokens. -/
def countNotRight : List Tok → Nat
  | [] => 0
  | t :: r => if isRightDelim t.typ then 0 else countNotRight r + 1

/-- The exit value of the scan loop of `getInterior`: the first index
`k ≥ j` holding a right delimiter, `toks.length` if none exists (and `j`
itself when `j` is already out of range, exactly as in Go). -/
def findRightFrom (toks : List Tok) (j : Nat) : Nat :=
  j + countNotRight (toks.drop j)

/-- Models `getInterior` of tomarkdoc.go: the raw trimmed interior between
the left delimiter at `leftIdx` and its immediate right delimiter (of either
style), the parsed shortcode name, and the index of that right delimiter.
Returns `([], [], leftIdx)` when no right delimiter follows. -/
def getInterior (toks : List Tok) (body : List Char) (leftIdx : Nat) :
    List Char × List Char × Nat :=
  let j := findRightFrom toks (leftIdx + 1)
  if j < toks.length then
    let left := toks.getD leftIdx dTok
    let right := toks.getD j dTok
    let trimmed := trimSpace (seg body left.stop right.start)
    let n := match trimmed with
      | '/' :: t => trimSpace t
      | _ => trimmed
    (trimmed, (fieldsGo n).headD [], j)
  else ([], [], leftIdx)

theorem getD_drop {α : Type} (l : List α) (j m : Nat) (d : α) :
    (l.drop j).getD m d = l.getD (j + m) d := by
  induction j generalizing l m with
  | zero => simp
  | succ j ih =>
    cases l with
    | nil => simp
    | cons a l' =>
      have : j + 1 + m = (j + m) + 1 := by omega
      simp [List.drop_succ_cons, ih l' m, this, List.getD_cons_succ]

theorem countNotRight_le (l : List Tok) : countNotRight l ≤ l.length := by
  induction l with
  | nil => simp [countNotRight]
  | cons t r ih =>
    simp only [countNotRight, List.length_cons]
    split
    · omega
    · omega

theorem countNotRight_hit (l : List Tok) (h : countNotRight l < l.length) :
    isRightDelim (l.getD (countNotRight l) dTok).typ = true := by
  induction l with
  | nil => simp [countNotRight] at h
  | cons t r ih =>
    cases hb : isRightDelim t.typ with
    | true => simp [countNotRight, hb]
    | false =>
      simp only [countNotRight, hb, Bool.false_eq_true, if_false,
        List.getD_cons_succ]
      apply ih
      simp only [countNotRight, hb, Bool.false_eq_true, if_false,
        List.length_cons] at h
      omega

theorem countNotRight_before (l : List Tok) (m : Nat) (h : m < countNotRight l) :
    isRightDelim (l.getD m dTok).typ = false := by
  induction l generalizing m with
  | nil => simp [countNotRight] at h
  | cons t r ih =>
    cases hb : isRightDelim t.typ with
    | true => simp [countNotRight, hb] at h
    | false =>
      simp only [countNotRight, hb, Bool.false_eq_true, if_false] at h
      cases m with
      | zero => simpa using hb
      | succ m' =>
        simp only [List.getD_cons_succ]
        exact ih m' (by omega)

/-- The scan of `getInterior` stops at the first right delimiter at or after
`j`, and runs to `toks.length` when none exists. -/
theorem findRightFrom_spec (toks : List Tok) (j : Nat) :
    (findRightFrom toks j < toks.length →
      isRightDelim (toks.getD (findRightFrom toks j) dTok).typ = true) ∧
    (∀ m, j ≤ m → m < findRightFrom toks j →
      isRightDelim (toks.getD m dTok).typ = false) ∧
    (¬ findRightFrom toks j < toks.length →
      ∀ m, j ≤ m → m < toks.length →
        isRightDelim (toks.getD m dTok).typ = false) := by
  refine ⟨?_, ?_, ?_⟩
  · intro h
    have hj : j ≤ toks.length := by
      by_contra hj
      have : toks.drop j = [] := List.drop_eq_nil_of_le (by omega)
      simp [findRightFrom, this, countNotRight] at h
      omega
    have hc : countNotRight (toks.drop j) < (toks.drop j).length := by
      simp only [findRightFrom] at h
      simp [List.length_drop]
      omega
    have := countNotRight_hit (toks.drop j) hc
    rwa [getD_drop] at this
  · intro m hjm hm
    have : (toks.drop j).getD (m - j) dTok = toks.getD m dTok := by
      rw [getD_drop]
      congr 1
      omega
    rw [← this]
    apply countNotRight_before
    simp only [findRightFrom] at hm
    omega
  · intro h m hjm hm
    have hc : countNotRight (toks.drop j) ≤ (toks.drop j).length :=
      countNotRight_le _
    have hlen : (toks.drop j).length = toks.length - j := List.length_drop j toks
    have : (toks.drop j).getD (m - j) dTok = toks.getD m dTok := by
      rw [getD_drop]; congr 1; omega
    rw [← this]
    apply countNotRight_before
    simp only [findRightFrom] at h
    omega

theorem getInterior_rIdx_ge (toks : List Tok) (body : List Char) (i : Nat) :
    i ≤ (getInterior toks body i).2.2 := by
  simp only [getInterior]
  split
  · simp only [findRightFrom]
    omega
  · simp

/-- Case analysis on `getInterior`: either no right delimiter follows the
open index and the result is `([], [], leftIdx)`, or the returned index is
the first right delimiter (of either style) strictly after the open index. -/
theorem getInterior_spec (toks : List Tok) (body : List Char) (i : Nat) :
    ((getInterior toks body i).2.2 = i ∧
      (getInterior toks body i).1 = [] ∧ (getInterior toks body i).2.1 = [] ∧
      ∀ m, i < m → m < toks.length →
        isRightDelim (toks.getD m dTok).typ = false) ∨
    (i < (getInterior toks body i).2.2 ∧
      (getInterior toks body i).2.2 < toks.length ∧
      isRightDelim (toks.getD (getInterior toks body i).2.2 dTok).typ = true ∧
      ∀ m, i < m → m < (getInterior toks body i).2.2 →
        isRightDelim (toks.getD m dTok).typ = false) := by
  obtain ⟨h1, h2, h3⟩ := findRightFrom_spec toks (i + 1)
  simp only [getInterior]
  split
  case isTrue h =>
    right
    refine ⟨?_, ?_, ?_, ?_⟩
    · simp only [findRightFrom]; omega
    · simpa using h
    · simpa using h1 h
    · intro m him hm
      exact h2 m (by omega) hm
  case isFalse h =>
    left
    refine ⟨rfl, rfl, rfl, ?_⟩
    intro m him hm
    exact h3 h m (by omega) hm

theorem getInterior_dec (toks : List Tok) (body : List Char) (i : Nat)
    (h : i < toks.length) :
    toks.length - ((getInterior toks body i).2.2 + 1) < toks.length - i := by
  have := getInterior_rIdx_ge toks body i
  omega

/-- Models the loop of `hasMatchingClose` of tomarkdoc.go: `i` is the scan
index, `depth` the name-scoped nesting counter (the Go `int` stays
non-negative: it is decremented only when positive). -/
def hmcGo (toks : List Tok) (body : List Char) (name : List Char)
    (i : Nat) (depth : Nat) : Bool :=
  if h : i < toks.length then
    if isLeftDelim (toks.getD i dTok).typ then
      if i + 1 < toks.length ∧ (toks.getD (i + 1) dTok).typ = "tScClose" then
        if (getInterior toks body i).2.1 = name then
          if depth = 0 then true
          else hmcGo toks body name ((getInterior toks body i).2.2 + 1) (depth - 1)
        else hmcGo toks body name ((getInterior toks body i).2.2 + 1) depth
      else
        if (getInterior toks body i).2.1 = name then
          hmcGo toks body name ((getInterior toks body i).2.2 + 1) (depth + 1)
        else hmcGo toks body name ((getInterior toks body i).2.2 + 1) depth
    else hmcGo toks body name (i + 1) depth
  else false
termination_by toks.length - i
decreasing_by
  all_goals first
    | exact getInterior_dec _ _ _ h
    | omega

/-- Models `hasMatchingClose` of tomarkdoc.go. -/
def hasMatchingClose (toks : List Tok) (body : List Char)
    (fromRightIdx : Nat) (name : List Char) : Bool :=
  hmcGo toks body name (fromRightIdx + 1) 0

/-- One iteration of the render loop of `renderToMdoc` (together with
`writeClosingShortcode` and `writeOpeningShortcode`): the bytes written for
the token at index `i` and the walk index of the next iteration. -/
def renderStep (toks : List Tok) (body : List Char) (i : Nat) :
    List Char × Nat :=
  let t := toks.getD i dTok
  if t.typ = "tText" then (t.val, i + 1)
  else if isLeftDelim t.typ then
    if i + 1 < toks.length ∧ (toks.getD (i + 1) dTok).typ = "tScClose" then
      ((if (getInterior toks body i).2.1 = [] then "\x7b% / %\x7d".data
        else "\x7b% /".data ++ (getInterior toks body i).2.1 ++ " %\x7d".data),
       (getInterior toks body i).2.2 + 1)
    else
      if (getInterior toks body i).2.1 = [] then
        ("\x7b% ".data ++ trimSpace (getInterior toks body i).1 ++ " %\x7d".data,
         (getInterior toks body i).2.2 + 1)
      else if hasMatchingClose toks body (getInterior toks body i).2.2
          (getInterior toks body i).2.1 then
        ("\x7b% ".data ++ trimSpace (getInterior toks body i).1 ++ " %\x7d".data,
         (getInterior toks body i).2.2 + 1)
      else
        ("\x7b% ".data ++ trimSpace (getInterior toks body i).1 ++ " /%\x7d".data,
         (getInterior toks body i).2.2 + 1)
  else if isRightDelim t.typ then ([], i + 1)
  else (t.val, i + 1)

/-- The walk index strictly increases at every iteration of the render loop. -/
theorem renderStep_progress (toks : List Tok) (body : List Char) (i : Nat) :
    i < (renderStep toks body i).2 := by
  have hg := getInterior_rIdx_ge toks body i
  simp only [renderStep]
  repeat' split
  all_goals simp
  all_goals omega

/-- The render loop of `renderToMdoc`, starting at walk index `i`. -/
theorem renderStep_dec (toks : List Tok) (body : List Char) (i : Nat)
    (h : i < toks.length) :
    toks.length - (renderStep toks body i).2 < toks.length - i := by
  have := renderStep_progress toks body i
  omega

def renderGo (toks : List Tok) (body : List Char) (i : Nat) : List Char :=
  if h : i < toks.length then
    (renderStep toks body i).1 ++ renderGo toks body (renderStep toks body i).2
  else []
termination_by toks.length - i
decreasing_by
  exact renderStep_dec _ _ _ h

/-- Models `renderToMdoc` of tomarkdoc.go. -/
def renderToMdoc (toks : List Tok) (body : List Char) : List Char :=
  renderGo toks body 0

theorem renderGo_text (toks : List Tok) (body : List Char)
    (ht : ∀ t ∈ toks, t.typ = "tText") (i : Nat) :
    renderGo toks body i = ((toks.drop i).map Tok.val).flatten := by
  rw [renderGo]
  split
  case isTrue h =>
    have hmem : toks.getD i dTok ∈ toks := by
      rw [List.getD_eq_getElem _ _ h]
      exact List.getElem_mem _
    have htyp := ht _ hmem
    have hstep : renderStep toks body i = ((toks.getD i dTok).val, i + 1) := by
      simp only [renderStep, htyp]
      simp
    rw [hstep, renderGo_text toks body ht (i + 1),
      List.drop_eq_getElem_cons h, List.map_cons, List.flatten_cons,
      List.getD_eq_getElem _ _ h]
  case isFalse h =>
    rw [List.drop_eq_nil_of_le (by omega)]
    simp
termination_by toks.length - i
decreasing_by omega

/-- Claim C3: for every token list, buffer and open index after which no
right delimiter (of either style) occurs, `getInterior` returns an empty
interior, an empty name, and the open index itself. -/
theorem c3_no_close_returns_open_index (toks : List Tok) (body : List Char)
    (i : Nat)
    (h : ∀ m, m < toks.length → i < m →
      isRightDelim (toks.getD m dTok).typ = false) :
    getInterior toks body i = ([], [], i) := by
  rcases getInterior_spec toks body i with ⟨h1, h2, h3, _⟩ | ⟨h1, h2, h3, _⟩
  · have : (getInterior toks body i) =
        ((getInterior toks body i).1,
         (getInterior toks body i).2.1, (getInterior toks body i).2.2) := rfl
    rw [this, h1, h2, h3]
  · have := h _ h2 h1
    rw [this] at h3
    cases h3

theorem c3_witness :
    (∀ m, m < 2 → 0 < m →
      isRightDelim (([⟨"tLeftDelimScNoMarkup", "\x7b\x7b<".data, 0, 3⟩,
        ⟨"tText", "ab".data, 3, 5⟩] : List Tok).getD m dTok).typ = false) ∧
    getInterior [⟨"tLeftDelimScNoMarkup", "\x7b\x7b<".data, 0, 3⟩,
        ⟨"tText", "ab".data, 3, 5⟩] "\x7b\x7b<ab".data 0 = ([], [], 0) :=
  ⟨by decide, c3_no_close_returns_open_index _ _ 0 (by decide)⟩

/-- Claim C1 is false on the code: `getInterior` stops at the first right
delimiter of either style, so the close index for a NoMarkup opener can be a
WithMarkup close delimiter. -/
theorem c1_counterexample :
    (([⟨"tLeftDelimScNoMarkup", "\x7b\x7b<".data, 0, 3⟩,
       ⟨"tRightDelimScWithMarkup", "%\x7d\x7d".data, 3, 6⟩] : List Tok).getD 0
        dTok).typ = "tLeftDelimScNoMarkup" ∧
    (([⟨"tLeftDelimScNoMarkup", "\x7b\x7b<".data, 0, 3⟩,
       ⟨"tRightDelimScWithMarkup", "%\x7d\x7d".data, 3, 6⟩] : List Tok).getD 1
        dTok).typ = "tRightDelimScWithMarkup" ∧
    (getInterior
      [⟨"tLeftDelimScNoMarkup", "\x7b\x7b<".data, 0, 3⟩,
       ⟨"tRightDelimScWithMarkup", "%\x7d\x7d".data, 3, 6⟩]
      "\x7b\x7b<%\x7d\x7d".data 0).2.2 = 1 := by
  refine ⟨rfl, rfl, ?_⟩
  decide

/-- Claim C1 (amended): whenever `getInterior` makes progress, the returned
close index is the first index after the open index holding a `CloseDelim`
token, regardless of delimiter style. -/
theorem c1_close_index_first_of_either_style (toks : List Tok)
    (body : List Char) (i : Nat)
    (h : (getInterior toks body i).2.2 ≠ i) :
    i < (getInterior toks body i).2.2 ∧
    (getInterior toks body i).2.2 < toks.length ∧
    isRightDelim (toks.getD ((getInterior toks body i).2.2) dTok).typ = true ∧
    ∀ m, i < m → m < (getInterior toks body i).2.2 →
      isRightDelim (toks.getD m dTok).typ = false := by
  rcases getInterior_spec toks body i with h1 | h2
  · exact absurd h1.1 h
  · exact h2

theorem c1_close_index_first_of_either_style_witness :
    (getInterior
      [⟨"tLeftDelimScNoMarkup", "\x7b\x7b<".data, 0, 3⟩,
       ⟨"tText", "x".data, 3, 4⟩,
       ⟨"tRightDelimScWithMarkup", "%\x7d\x7d".data, 4, 7⟩]
      "\x7b\x7b<x%\x7d\x7d".data 0).2.2 ≠ 0 ∧
    (0 < (getInterior
      [⟨"tLeftDelimScNoMarkup", "\x7b\x7b<".data, 0, 3⟩,
       ⟨"tText", "x".data, 3, 4⟩,
       ⟨"tRightDelimScWithMarkup", "%\x7d\x7d".data, 4, 7⟩]
      "\x7b\x7b<x%\x7d\x7d".data 0).2.2 ∧
     (getInterior
      [⟨"tLeftDelimScNoMarkup", "\x7b\x7b<".data, 0, 3⟩,
       ⟨"tText", "x".data, 3, 4⟩,
       ⟨"tRightDelimScWithMarkup", "%\x7d\x7d".data, 4, 7⟩]
      "\x7b\x7b<x%\x7d\x7d".data 0).2.2 < 3 ∧
     isRightDelim (([⟨"tLeftDelimScNoMarkup", "\x7b\x7b<".data, 0, 3⟩,
       ⟨"tText", "x".data, 3, 4⟩,
       ⟨"tRightDelimScWithMarkup", "%\x7d\x7d".data, 4, 7⟩] : List Tok).getD
        ((getInterior
          [⟨"tLeftDelimScNoMarkup", "\x7b\x7b<".data, 0, 3⟩,
           ⟨"tText", "x".data, 3, 4⟩,
           ⟨"tRightDelimScWithMarkup", "%\x7d\x7d".data, 4, 7⟩]
          "\x7b\x7b<x%\x7d\x7d".data 0).2.2) dTok).typ = true ∧
     ∀ m, 0 < m → m < (getInterior
          [⟨"tLeftDelimScNoMarkup", "\x7b\x7b<".data, 0, 3⟩,
           ⟨"tText", "x".data, 3, 4⟩,
           ⟨"tRightDelimScWithMarkup", "%\x7d\x7d".data, 4, 7⟩]
          "\x7b\x7b<x%\x7d\x7d".data 0).2.2 →
       isRightDelim (([⟨"tLeftDelimScNoMarkup", "\x7b\x7b<".data, 0, 3⟩,
         ⟨"tText", "x".data, 3, 4⟩,
         ⟨"tRightDelimScWithMarkup", "%\x7d\x7d".data, 4, 7⟩] : List Tok).getD
          m dTok).typ = false) :=
  ⟨by decide, c1_close_index_first_of_either_style _ _ 0 (by decide)⟩

/-- Claim C4: when the lexer produced only `Text` tokens exactly partitioning
the buffer, the renderer's output is byte-for-byte the input buffer. -/
theorem c4_text_only_passthrough (toks : List Tok) (body : List Char)
    (ht : ∀ t ∈ toks, t.typ = "tText")
    (hp : (toks.map Tok.val).flatten = body) :
    renderToMdoc toks body = body := by
  rw [renderToMdoc, renderGo_text toks body ht 0]
  simpa using hp

theorem c4_witness :
    (∀ t ∈ ([⟨"tText", "Just ".data, 0, 5⟩,
             ⟨"tText", "text.".data, 5, 10⟩] : List Tok), t.typ = "tText") ∧
    (([⟨"tText", "Just ".data, 0, 5⟩,
       ⟨"tText", "text.".data, 5, 10⟩] : List Tok).map Tok.val).flatten
      = "Just text.".data ∧
    renderToMdoc [⟨"tText", "Just ".data, 0, 5⟩,
       ⟨"tText", "text.".data, 5, 10⟩] "Just text.".data
      = "Just text.".data :=
  ⟨by decide, by decide, c4_text_only_passthrough _ _ (by decide) (by decide)⟩

/-- Claim C9: the renderer's walk index strictly increases on every
iteration of `renderGo`, including when the resolver signals no progress by
returning a close index equal to the open index, so the render pass
terminates on every finite token list. -/
theorem c9_render_walk_strictly_increases (toks : List Tok) (body : List Char)
    (i : Nat) : i < (renderStep toks body i).2 :=
  renderStep_progress toks body i

/-- The pairing scan described by the specification of `hasMatchingClose`:
`CloseScan toks body name i depth` holds when the scan starting at token
index `i` with nesting counter `depth` reaches, at depth zero, a closing
occurrence whose resolved name is `name`.  The counter is incremented only
by opening occurrences of `name`, decremented only by closing occurrences of
`name`; occurrences of other names are passed over with the counter
unchanged, and the scan advances past the close index the resolver returns. -/
inductive CloseScan (toks : List Tok) (body : List Char) (name : List Char) :
    Nat → Nat → Prop where
  | found (i : Nat) (h : i < toks.length)
      (hl : isLeftDelim (toks.getD i dTok).typ = true)
      (hc : i + 1 < toks.length ∧ (toks.getD (i + 1) dTok).typ = "tScClose")
      (hn : (getInterior toks body i).2.1 = name) :
      CloseScan toks body name i 0
  | closeNested (i d : Nat) (h : i < toks.length)
      (hl : isLeftDelim (toks.getD i dTok).typ = true)
      (hc : i + 1 < toks.length ∧ (toks.getD (i + 1) dTok).typ = "tScClose")
      (hn : (getInterior toks body i).2.1 = name)
      (next : CloseScan toks body name ((getInterior toks body i).2.2 + 1) d) :
      CloseScan toks body name i (d + 1)
  | closeOther (i d : Nat) (h : i < toks.length)
      (hl : isLeftDelim (toks.getD i dTok).typ = true)
      (hc : i + 1 < toks.length ∧ (toks.getD (i + 1) dTok).typ = "tScClose")
      (hn : ¬ (getInterior toks body i).2.1 = name)
      (next : CloseScan toks body name ((getInterior toks body i).2.2 + 1) d) :
      CloseScan toks body name i d
  | openSame (i d : Nat) (h : i < toks.length)
      (hl : isLeftDelim (toks.getD i dTok).typ = true)
      (hc : ¬ (i + 1 < toks.length ∧
        (toks.getD (i + 1) dTok).typ = "tScClose"))
      (hn : (getInterior toks body i).2.1 = name)
      (next : CloseScan toks body name ((getInterior toks body i).2.2 + 1)
        (d + 1)) :
      CloseScan toks body name i d
  | openOther (i d : Nat) (h : i < toks.length)
      (hl : isLeftDelim (toks.getD i dTok).typ = true)
      (hc : ¬ (i + 1 < toks.length ∧
        (toks.getD (i + 1) dTok).typ = "tScClose"))
      (hn : ¬ (getInterior toks body i).2.1 = name)
      (next : CloseScan toks body name ((getInterior toks body i).2.2 + 1) d) :
      CloseScan toks body name i d
  | skip (i d : Nat) (h : i < toks.length)
      (hl : isLeftDelim (toks.getD i dTok).typ = false)
      (next : CloseScan toks body name (i + 1) d) :
      CloseScan toks body name i d

theorem hmcGo_imp_closeScan (toks : List Tok) (body : List Char)
    (name : List Char) (i d : Nat) (hrun : hmcGo toks body name i d = true) :
    CloseScan toks body name i d := by
  rw [hmcGo] at hrun
  by_cases h : i < toks.length
  · rw [dif_pos h] at hrun
    by_cases hl : isLeftDelim (toks.getD i dTok).typ = true
    · rw [if_pos hl] at hrun
      by_cases hc : i + 1 < toks.length ∧
          (toks.getD (i + 1) dTok).typ = "tScClose"
      · rw [if_pos hc] at hrun
        by_cases hn : (getInterior toks body i).2.1 = name
        · rw [if_pos hn] at hrun
          by_cases hd : d = 0
          · subst hd
            exact CloseScan.found i h hl hc hn
          · rw [if_neg hd] at hrun
            have next := hmcGo_imp_closeScan toks body name
              ((getInterior toks body i).2.2 + 1) (d - 1) hrun
            have := CloseScan.closeNested i (d - 1) h hl hc hn next
            have hd' : d - 1 + 1 = d := by omega
            rwa [hd'] at this
        · rw [if_neg hn] at hrun
          exact CloseScan.closeOther i d h hl hc hn
            (hmcGo_imp_closeScan toks body name
              ((getInterior toks body i).2.2 + 1) d hrun)
      · rw [if_neg hc] at hrun
        by_cases hn : (getInterior toks body i).2.1 = name
        · rw [if_pos hn] at hrun
          exact CloseScan.openSame i d h hl hc hn
            (hmcGo_imp_closeScan toks body name
              ((getInterior toks body i).2.2 + 1) (d + 1) hrun)
        · rw [if_neg hn] at hrun
          exact CloseScan.openOther i d h hl hc hn
            (hmcGo_imp_closeScan toks body name
              ((getInterior toks body i).2.2 + 1) d hrun)
    · rw [if_neg hl] at hrun
      have hl' : isLeftDelim (toks.getD i dTok).typ = false := by
        cases hb : isLeftDelim (toks.getD i dTok).typ
        · rfl
        · exact absurd hb hl
      exact CloseScan.skip i d h hl'
        (hmcGo_imp_closeScan toks body name (i + 1) d hrun)
  · rw [dif_neg h] at hrun
    cases hrun
termination_by toks.length - i
decreasing_by
  all_goals first
    | exact getInterior_dec _ _ _ h
    | omega

theorem closeScan_imp_hmcGo (toks : List Tok) (body : List Char)
    (name : List Char) {i d : Nat} (hscan : CloseScan toks body name i d) :
    hmcGo toks body name i d = true := by
  induction hscan with
  | found i h hl hc hn =>
    rw [hmcGo, dif_pos h, if_pos hl, if_pos hc, if_pos hn]
    simp
  | closeNested i d h hl hc hn next ih =>
    rw [hmcGo, dif_pos h, if_pos hl, if_pos hc, if_pos hn]
    have : ¬ d + 1 = 0 := by omega
    rw [if_neg this]
    simpa using ih
  | closeOther i d h hl hc hn next ih =>
    rw [hmcGo, dif_pos h, if_pos hl, if_pos hc, if_neg hn]
    exact ih
  | openSame i d h hl hc hn next ih =>
    rw [hmcGo, dif_pos h, if_pos hl, if_neg hc, if_pos hn]
    exact ih
  | openOther i d h hl hc hn next ih =>
    rw [hmcGo, dif_pos h, if_pos hl, if_neg hc, if_neg hn]
    exact ih
  | skip i d h hl next ih =>
    have hl' : ¬ isLeftDelim (toks.getD i dTok).typ = true := by
      rw [hl]
      simp
    rw [hmcGo, dif_pos h, if_neg hl']
    exact ih

/-- Claim C5: `hasMatchingClose` returns `true` exactly when the name-scoped
scan strictly after the starting index reaches a same-name closing occurrence
at depth zero, where only same-name opening occurrences increment and only
same-name closing occurrences decrement the depth counter (other names leave
it unchanged); reaching the end of the stream without such a match yields
`false`. -/
theorem c5_hasMatchingClose_iff_closeScan (toks : List Tok) (body : List Char)
    (fromRightIdx : Nat) (name : List Char) :
    hasMatchingClose toks body fromRightIdx name = true ↔
    CloseScan toks body name (fromRightIdx + 1) 0 :=
  ⟨fun h => hmcGo_imp_closeScan toks body name (fromRightIdx + 1) 0 h,
   fun h => closeScan_imp_hmcGo toks body name h⟩



/-- Continuation byte (0x80..0xBF) of UTF-8, as in Go's `unicode/utf8`. -/
def isCont (b : Nat) : Bool :=
  decide (0x80 ≤ b ∧ b ≤ 0xBF)

/-- Go's restricted second-byte range for three-byte sequences
(`acceptRanges` for leaders 0xE0 and 0xED). -/
def utf8Second3 (b c : Nat) : Bool :=
  if b = 0xE0 then decide (0xA0 ≤ c ∧ c ≤ 0xBF)
  else if b = 0xED then decide (0x80 ≤ c ∧ c ≤ 0x9F)
  else isCont c

/-- Go's restricted second-byte range for four-byte sequences
(`acceptRanges` for leaders 0xF0 and 0xF4). -/
def utf8Second4 (b c : Nat) : Bool :=
  if b = 0xF0 then decide (0x90 ≤ c ∧ c ≤ 0xBF)
  else if b = 0xF4 then decide (0x80 ≤ c ∧ c ≤ 0x8F)
  else isCont c

/-- Models `utf8.Valid` of Go's `unicode/utf8` on a byte list, with the byte
ranges of Go's `acceptRanges` table (RFC 3629): one character is checked and
consumed per step.  `fuel` only drives the structural recursion; any
`fuel ≥ length` gives the same answer (`utf8ValidF_fuel`), and `utf8Valid`
instantiates it with the list length. -/
def utf8ValidF : Nat → List Nat → Bool
  | _, [] => true
  | 0, _ :: _ => false
  | fuel + 1, b :: rest =>
    if b < 0x80 then utf8ValidF fuel rest
    else if b < 0xC2 then false
    else if b ≤ 0xDF then
      decide (1 ≤ rest.length) && (isCont (rest.getD 0 0) &&
        utf8ValidF fuel (rest.drop 1))
    else if b ≤ 0xEF then
      decide (2 ≤ rest.length) && (utf8Second3 b (rest.getD 0 0) &&
        (isCont (rest.getD 1 0) && utf8ValidF fuel (rest.drop 2)))
    else if b ≤ 0xF4 then
      decide (3 ≤ rest.length) && (utf8Second4 b (rest.getD 0 0) &&
        (isCont (rest.getD 1 0) && (isCont (rest.getD 2 0) &&
          utf8ValidF fuel (rest.drop 3))))
    else false

/-- Models `utf8.Valid`. -/
def utf8Valid (l : List Nat) : Bool :=
  utf8ValidF l.length l

/-- Any two sufficient fuels agree. -/
theorem utf8ValidF_fuel (f : Nat) : ∀ (g : Nat) (l : List Nat),
    l.length ≤ f → l.length ≤ g → utf8ValidF f l = utf8ValidF g l := by
  induction f with
  | zero =>
    intro g l hf _
    have : l = [] := List.eq_nil_of_length_eq_zero (by omega)
    subst this
    cases g <;> simp [utf8ValidF]
  | succ f ih =>
    intro g l hf hg
    cases l with
    | nil => cases g <;> simp [utf8ValidF]
    | cons b rest =>
      cases g with
      | zero => simp at hg
      | succ g =>
        simp only [List.length_cons] at hf hg
        have hr1 : (rest.drop 1).length ≤ f := by
          simp [List.length_drop]; omega
        have hr1g : (rest.drop 1).length ≤ g := by
          simp [List.length_drop]; omega
        have hr2 : (rest.drop 2).length ≤ f := by
          simp [List.length_drop]; omega
        have hr2g : (rest.drop 2).length ≤ g := by
          simp [List.length_drop]; omega
        have hr3 : (rest.drop 3).length ≤ f := by
          simp [List.length_drop]; omega
        have hr3g : (rest.drop 3).length ≤ g := by
          simp [List.length_drop]; omega
        simp only [utf8ValidF]
        rw [ih g rest (by omega) (by omega), ih g (rest.drop 1) hr1 hr1g,
          ih g (rest.drop 2) hr2 hr2g, ih g (rest.drop 3) hr3 hr3g]

/-- A single well-formed UTF-8 character sequence (1 to 4 bytes), with the
same byte-range table as `utf8Valid`. -/
def charSeq : List Nat → Bool
  | [b] => decide (b < 0x80)
  | [b, c] => decide (0xC2 ≤ b ∧ b ≤ 0xDF) && isCont c
  | [b, c, d] => decide (0xE0 ≤ b ∧ b ≤ 0xEF) && (utf8Second3 b c && isCont d)
  | [b, c, d, e] =>
    decide (0xF0 ≤ b ∧ b ≤ 0xF4) && (utf8Second4 b c && (isCont d && isCont e))
  | _ => false

theorem utf8Second3_cont (b c : Nat) (h : utf8Second3 b c = true) :
    isCont c = true := by
  by_cases hb : b = 0xE0
  · rw [utf8Second3, if_pos hb] at h
    simp only [decide_eq_true_eq] at h
    simp only [isCont, decide_eq_true_eq]
    omega
  · rw [utf8Second3, if_neg hb] at h
    by_cases hd : b = 0xED
    · rw [if_pos hd] at h
      simp only [decide_eq_true_eq] at h
      simp only [isCont, decide_eq_true_eq]
      omega
    · rwa [if_neg hd] at h

theorem utf8Second4_cont (b c : Nat) (h : utf8Second4 b c = true) :
    isCont c = true := by
  by_cases hb : b = 0xF0
  · rw [utf8Second4, if_pos hb] at h
    simp only [decide_eq_true_eq] at h
    simp only [isCont, decide_eq_true_eq]
    omega
  · rw [utf8Second4, if_neg hb] at h
    by_cases hd : b = 0xF4
    · rw [if_pos hd] at h
      simp only [decide_eq_true_eq] at h
      simp only [isCont, decide_eq_true_eq]
      omega
    · rwa [if_neg hd] at h

/-- A valid byte list is empty or starts with one well-formed character. -/
theorem utf8Valid_decomp (l : List Nat) (h : utf8Valid l = true) :
    l = [] ∨ ∃ c r, l = c ++ r ∧ charSeq c = true ∧ utf8Valid r = true := by
  cases l with
  | nil => exact Or.inl rfl
  | cons b rest =>
    right
    rw [utf8Valid] at h
    simp only [List.length_cons, utf8ValidF] at h
    by_cases h1 : b < 0x80
    · rw [if_pos h1] at h
      exact ⟨[b], rest, rfl, by simp [charSeq, h1], h⟩
    · by_cases h2 : b < 0xC2
      · rw [if_neg h1, if_pos h2] at h
        cases h
      · by_cases h3 : b ≤ 0xDF
        · rw [if_neg h1, if_neg h2, if_pos h3] at h
          simp only [Bool.and_eq_true, decide_eq_true_eq] at h
          obtain ⟨hlen, hcont, hrec⟩ := h
          cases rest with
          | nil => simp at hlen
          | cons c r =>
            simp only [List.getD_cons_zero] at hcont
            simp only [List.drop_succ_cons, List.drop_zero,
              List.length_cons] at hrec
            refine ⟨[b, c], r, rfl, ?_, ?_⟩
            · simp only [charSeq, Bool.and_eq_true, decide_eq_true_eq]
              exact ⟨⟨by omega, h3⟩, hcont⟩
            · rw [utf8Valid, ← utf8ValidF_fuel (r.length + 1) r.length r
                (by omega) (by omega)]
              exact hrec
        · by_cases h4 : b ≤ 0xEF
          · rw [if_neg h1, if_neg h2, if_neg h3, if_pos h4] at h
            simp only [Bool.and_eq_true, decide_eq_true_eq] at h
            obtain ⟨hlen, hsec, hcont, hrec⟩ := h
            match rest, hlen, hsec, hcont, hrec with
            | c :: d :: r, hlen, hsec, hcont, hrec =>
              simp only [List.getD_cons_zero, List.getD_cons_succ] at hsec hcont
              simp only [List.drop_succ_cons, List.drop_zero,
                List.length_cons] at hrec
              refine ⟨[b, c, d], r, rfl, ?_, ?_⟩
              · simp only [charSeq, Bool.and_eq_true, decide_eq_true_eq]
                exact ⟨⟨by omega, h4⟩, hsec, hcont⟩
              · rw [utf8Valid, ← utf8ValidF_fuel (r.length + 1 + 1) r.length r
                  (by omega) (by omega)]
                exact hrec
          · by_cases h5 : b ≤ 0xF4
            · rw [if_neg h1, if_neg h2, if_neg h3, if_neg h4, if_pos h5] at h
              simp only [Bool.and_eq_true, decide_eq_true_eq] at h
              obtain ⟨hlen, hsec, hcont, hcont2, hrec⟩ := h
              match rest, hlen, hsec, hcont, hcont2, hrec with
              | c :: d :: e :: r, hlen, hsec, hcont, hcont2, hrec =>
                simp only [List.getD_cons_zero, List.getD_cons_succ]
                  at hsec hcont hcont2
                simp only [List.drop_succ_cons, List.drop_zero,
                  List.length_cons] at hrec
                refine ⟨[b, c, d, e], r, rfl, ?_, ?_⟩
                · simp only [charSeq, Bool.and_eq_true, decide_eq_true_eq]
                  exact ⟨⟨by omega, h5⟩, hsec, hcont, hcont2⟩
                · rw [utf8Valid,
                    ← utf8ValidF_fuel (r.length + 1 + 1 + 1) r.length r
                    (by omega) (by omega)]
                  exact hrec
            · rw [if_neg h1, if_neg h2, if_neg h3, if_neg h4, if_neg h5] at h
              cases h

/-- Prepending one well-formed character preserves/reflects validity. -/
theorem utf8Valid_charSeq_append (c r : List Nat) (h : charSeq c = true) :
    utf8Valid (c ++ r) = utf8Valid r := by
  match c with
  | [] => simp [charSeq] at h
  | [b] =>
    simp only [charSeq, decide_eq_true_eq] at h
    show utf8ValidF ([b] ++ r).length ([b] ++ r) = _
    simp only [List.cons_append, List.nil_append, List.length_cons]
    simp only [utf8ValidF, if_pos h]
    rfl
  | [b, c'] =>
    simp only [charSeq, Bool.and_eq_true, decide_eq_true_eq] at h
    obtain ⟨⟨h1, h2⟩, h3⟩ := h
    have hb1 : ¬ b < 0x80 := by omega
    have hb2 : ¬ b < 0xC2 := by omega
    show utf8ValidF ([b, c'] ++ r).length ([b, c'] ++ r) = _
    simp only [List.cons_append, List.nil_append, List.length_cons]
    simp only [utf8ValidF, if_neg hb1, if_neg hb2, if_pos h2]
    simp only [List.length_cons, List.getD_cons_zero, List.drop_succ_cons,
      List.drop_zero, h3]
    have hd : decide (1 ≤ r.length + 1) = true := by simp
    rw [hd, utf8ValidF_fuel (r.length + 1) r.length r (by omega) (by omega)]
    simp only [Bool.true_and]
    rfl
  | [b, c', d] =>
    simp only [charSeq, Bool.and_eq_true, decide_eq_true_eq] at h
    obtain ⟨⟨h1, h2⟩, h3, h4⟩ := h
    have hb1 : ¬ b < 0x80 := by omega
    have hb2 : ¬ b < 0xC2 := by omega
    have hb3 : ¬ b ≤ 0xDF := by omega
    show utf8ValidF ([b, c', d] ++ r).length ([b, c', d] ++ r) = _
    simp only [List.cons_append, List.nil_append, List.length_cons]
    simp only [utf8ValidF, if_neg hb1, if_neg hb2, if_neg hb3, if_pos h2]
    simp only [List.length_cons, List.getD_cons_zero, List.getD_cons_succ,
      List.drop_succ_cons, List.drop_zero, h3, h4]
    have hd : decide (2 ≤ r.length + 1 + 1) = true := by simp
    rw [hd, utf8ValidF_fuel (r.length + 1 + 1) r.length r (by omega) (by omega)]
    simp only [Bool.true_and]
    rfl
  | [b, c', d, e] =>
    simp only [charSeq, Bool.and_eq_true, decide_eq_true_eq] at h
    obtain ⟨⟨h1, h2⟩, h3, h4, h5⟩ := h
    have hb1 : ¬ b < 0x80 := by omega
    have hb2 : ¬ b < 0xC2 := by omega
    have hb3 : ¬ b ≤ 0xDF := by omega
    have hb4 : ¬ b ≤ 0xEF := by omega
    show utf8ValidF ([b, c', d, e] ++ r).length ([b, c', d, e] ++ r) = _
    simp only [List.cons_append, List.nil_append, List.length_cons]
    simp only [utf8ValidF, if_neg hb1, if_neg hb2, if_neg hb3, if_neg hb4,
      if_pos h2]
    simp only [List.length_cons, List.getD_cons_zero, List.getD_cons_succ,
      List.drop_succ_cons, List.drop_zero, h3, h4, h5]
    have hd : decide (3 ≤ r.length + 1 + 1 + 1) = true := by simp
    rw [hd, utf8ValidF_fuel (r.length + 1 + 1 + 1) r.length r
      (by omega) (by omega)]
    simp only [Bool.true_and]
    rfl
  | b1 :: b2 :: b3 :: b4 :: b5 :: rest => simp [charSeq] at h

theorem charSeq_ne_nil (c : List Nat) (h : charSeq c = true) : c ≠ [] := by
  intro hc
  subst hc
  simp [charSeq] at h

/-- Every byte of a character sequence other than the first is a
continuation byte. -/
theorem charSeq_cont (c : List Nat) (h : charSeq c = true) (k : Nat)
    (hk1 : 1 ≤ k) (hk2 : k < c.length) : isCont (c.getD k 0) = true := by
  match c with
  | [] => simp [charSeq] at h
  | [b] => simp at hk2; omega
  | [b, c'] =>
    simp only [charSeq, Bool.and_eq_true, decide_eq_true_eq] at h
    have : k = 1 := by simp at hk2; omega
    subst this
    exact h.2
  | [b, c', d] =>
    simp only [charSeq, Bool.and_eq_true, decide_eq_true_eq] at h
    obtain ⟨-, h3, h4⟩ := h
    have hl : k < 3 := by simpa using hk2
    interval_cases k
    · exact utf8Second3_cont b c' h3
    · exact h4
  | [b, c', d, e] =>
    simp only [charSeq, Bool.and_eq_true, decide_eq_true_eq] at h
    obtain ⟨-, h3, h4, h5⟩ := h
    have hl : k < 4 := by simpa using hk2
    interval_cases k
    · exact utf8Second4_cont b c' h3
    · exact h4
    · exact h5
  | b1 :: b2 :: b3 :: b4 :: b5 :: rest => simp [charSeq] at h

/-- The first byte of a character sequence is never a continuation byte. -/
theorem charSeq_head_not_cont (c : List Nat) (h : charSeq c = true) :
    isCont (c.getD 0 0) = false := by
  match c with
  | [] => simp [charSeq] at h
  | [b] =>
    simp only [charSeq, decide_eq_true_eq] at h
    simp only [List.getD_cons_zero, isCont, decide_eq_false_iff_not]
    omega
  | [b, c'] =>
    simp only [charSeq, Bool.and_eq_true, decide_eq_true_eq] at h
    simp only [List.getD_cons_zero, isCont, decide_eq_false_iff_not]
    omega
  | [b, c', d] =>
    simp only [charSeq, Bool.and_eq_true, decide_eq_true_eq] at h
    simp only [List.getD_cons_zero, isCont, decide_eq_false_iff_not]
    omega
  | [b, c', d, e] =>
    simp only [charSeq, Bool.and_eq_true, decide_eq_true_eq] at h
    simp only [List.getD_cons_zero, isCont, decide_eq_false_iff_not]
    omega
  | b1 :: b2 :: b3 :: b4 :: b5 :: rest => simp [charSeq] at h

theorem utf8Valid_append (a b : List Nat) (ha : utf8Valid a = true)
    (hb : utf8Valid b = true) : utf8Valid (a ++ b) = true := by
  rcases utf8Valid_decomp a ha with h | ⟨c, r, hcr, hc, hr⟩
  · subst h
    simpa using hb
  · subst hcr
    rw [List.append_assoc, utf8Valid_charSeq_append c (r ++ b) hc]
    exact utf8Valid_append r b hr hb
termination_by a.length
decreasing_by
  have h1 : 0 < c.length := List.length_pos.mpr (charSeq_ne_nil c hc)
  have h2 : (c ++ r).length = c.length + r.length := List.length_append c r
  have h3 : a.length = (c ++ r).length := by rw [hcr]
  omega

theorem utf8Valid_append_cancel (a b : List Nat)
    (hab : utf8Valid (a ++ b) = true) (ha : utf8Valid a = true) :
    utf8Valid b = true := by
  rcases utf8Valid_decomp a ha with h | ⟨c, r, hcr, hc, hr⟩
  · subst h
    simpa using hab
  · subst hcr
    rw [List.append_assoc, utf8Valid_charSeq_append c (r ++ b) hc] at hab
    exact utf8Valid_append_cancel r b hab hr
termination_by a.length
decreasing_by
  have h1 : 0 < c.length := List.length_pos.mpr (charSeq_ne_nil c hc)
  have h2 : (c ++ r).length = c.length + r.length := List.length_append c r
  have h3 : a.length = (c ++ r).length := by rw [hcr]
  omega

/-- In a valid buffer, a position whose prefix is not valid (i.e. a position
inside a multi-byte character) holds a continuation byte. -/
theorem utf8Valid_midchar (l : List Nat) (hv : utf8Valid l = true) (n : Nat)
    (hn : n < l.length) (ht : utf8Valid (l.take n) = false) :
    isCont (l.getD n 0) = true := by
  rcases utf8Valid_decomp l hv with h | ⟨c, r, hcr, hc, hr⟩
  · subst h
    simp at hn
  · subst hcr
    by_cases hlt : n < c.length
    · have hn1 : 1 ≤ n := by
        by_contra h0
        have hz : n = 0 := by omega
        subst hz
        rw [List.take_zero] at ht
        simp [utf8Valid, utf8ValidF] at ht
      rw [List.getD_append _ _ _ _ hlt]
      exact charSeq_cont c hc n hn1 hlt
    · push_neg at hlt
      have htake : (c ++ r).take n = c ++ r.take (n - c.length) := by
        rw [List.take_append_eq_append_take, List.take_of_length_le hlt]
      rw [htake] at ht
      have ht' : utf8Valid (r.take (n - c.length)) = false := by
        cases hvt : utf8Valid (r.take (n - c.length)) with
        | false => rfl
        | true =>
          rw [utf8Valid_charSeq_append c _ hc, hvt] at ht
          cases ht
      have hnr : n - c.length < r.length := by
        rw [List.length_append] at hn
        omega
      rw [List.getD_append_right _ _ _ _ hlt]
      exact utf8Valid_midchar r hr (n - c.length) hnr ht'
termination_by l.length
decreasing_by
  have h1 : 0 < c.length := List.length_pos.mpr (charSeq_ne_nil c hc)
  have h2 : (c ++ r).length = c.length + r.length := List.length_append c r
  have h3 : l.length = (c ++ r).length := by rw [hcr]
  omega

theorem getD_take {α : Type} (l : List α) (m n : Nat) (d : α) (h : n < m) :
    (l.take m).getD n d = l.getD n d := by
  induction l generalizing m n with
  | nil => simp
  | cons a l ih =>
    cases m with
    | zero => omega
    | succ m' =>
      cases n with
      | zero => simp
      | succ n' =>
        simp only [List.take_succ_cons, List.getD_cons_succ]
        exact ih m' n' (by omega)

/-- A segment of a buffer lying between two valid boundaries is valid. -/
theorem utf8Valid_seg (body : List Nat) (s e : Nat) (hse : s ≤ e)
    (he : e ≤ body.length)
    (hs : utf8Valid (body.take s) = true)
    (hev : utf8Valid (body.take e) = true) :
    utf8Valid (seg body s e) = true := by
  apply utf8Valid_append_cancel (body.take s)
  · have h1 : body.take s = (body.take e).take s := by
      rw [List.take_take, Nat.min_eq_left hse]
    rw [seg, h1, List.take_append_drop]
    exact hev
  · exact hs

/-- A segment with one end strictly inside a multi-byte character of a valid
buffer is invalid, so `utf8.Valid` rejects it. -/
theorem utf8Valid_seg_bisect (body : List Nat) (s e : Nat)
    (hv : utf8Valid body = true) (hse : s < e) (he : e ≤ body.length)
    (hb : utf8Valid (body.take s) = false ∨ utf8Valid (body.take e) = false) :
    utf8Valid (seg body s e) = false := by
  cases hval : utf8Valid (seg body s e) with
  | false => rfl
  | true =>
    exfalso
    by_cases hs : utf8Valid (body.take s) = true
    · have hbe : utf8Valid (body.take e) = false := by
        rcases hb with h | h
        · rw [h] at hs
          cases hs
        · exact h
      have h1 : body.take s = (body.take e).take s := by
        rw [List.take_take, Nat.min_eq_left (by omega)]
      have : utf8Valid (body.take e) = true := by
        rw [← List.take_append_drop s (body.take e), ← h1]
        exact utf8Valid_append _ _ hs (by rw [← seg]; exact hval)
      rw [this] at hbe
      cases hbe
    · have hsf : utf8Valid (body.take s) = false := by
        cases h : utf8Valid (body.take s) with
        | false => rfl
        | true => exact absurd h hs
      have hcont : isCont (body.getD s 0) = true :=
        utf8Valid_midchar body hv s (by omega) hsf
      rcases utf8Valid_decomp (seg body s e) hval with hnil | ⟨c, r, hcr, hc, -⟩
      · have : (seg body s e).length = e - s := by
          simp [seg, List.length_drop, List.length_take]
          omega
        rw [hnil] at this
        simp at this
        omega
      · have hhead : (seg body s e).getD 0 0 = body.getD s 0 := by
          rw [seg, getD_drop, Nat.add_zero, getD_take body e s 0 hse]
        have hchead : (seg body s e).getD 0 0 = c.getD 0 0 := by
          rw [hcr]
          exact List.getD_append _ _ _ _
            (List.length_pos.mpr (charSeq_ne_nil c hc))
        have := charSeq_head_not_cont c hc
        rw [← hchead, hhead, hcont] at this
        cases this

/-- `TextSpan` mirrors the TextSpan struct of the round-trip driver: Start
and End byte offsets into the body (the Go field `End` is named `stop`) and
the recorded text, which the splice loop never reads (it re-slices the
buffer).  Go's `int` offsets are modelled as `Nat`, so the loop's
`span.Start < 0 || span.End < 0` checks are vacuous here. -/
structure TextSpan where
  start : Nat
  stop : Nat
  text : List Nat

/-- The loop of `translateBodyUsingRanges`, processing the given spans in
list order, with the text transformer abstracted as `tr` (the code hardwires
`strings.ToUpper` / `piglatin.ToPigLatin`; spec sections 4.5 and 6 treat it
as an injected pure function).  A failed bounds or `utf8.Valid` check models
`log.Fatalf`: the whole operation yields no buffer.  `spliceSpans` feeds the
reversed span list, modelling `for i := len(spans)-1; i >= 0; i--`. -/
def spliceRev (tr : List Nat → List Nat) :
    List TextSpan → List Nat → Option (List Nat)
  | [], body => some body
  | sp :: rest, body =>
    if sp.start > sp.stop ∨ sp.stop > body.length then none
    else if utf8Valid (seg body sp.start sp.stop) = false then none
    else spliceRev tr rest
      (body.take sp.start ++ tr (seg body sp.start sp.stop) ++
        body.drop sp.stop)

/-- Models `translateBodyUsingRanges` with the transformer abstracted:
spans are processed from the highest start offset to the lowest. -/
def spliceSpans (tr : List Nat → List Nat) (spans : List TextSpan)
    (body : List Nat) : Option (List Nat) :=
  spliceRev tr spans.reverse body

/-- The buffer described by claim C7: the untouched between-span segments of
the original buffer interleaved, in order, with the transformed fragments. -/
def splicedSpec (tr : List Nat → List Nat) (body : List Nat) :
    Nat → List TextSpan → List Nat
  | prev, [] => body.drop prev
  | prev, sp :: rest =>
    seg body prev sp.start ++ tr (seg body sp.start sp.stop) ++
      splicedSpec tr body sp.stop rest

/-- Ascending-ordered, pairwise-disjoint spans: each span ends at or before
the next begins. -/
def spansOrdered : List TextSpan → Bool
  | [] => true
  | [_] => true
  | a :: b :: r => decide (a.stop ≤ b.start) && spansOrdered (b :: r)

theorem spansOrdered_tail (x : TextSpan) (l : List TextSpan)
    (h : spansOrdered (x :: l) = true) : spansOrdered l = true := by
  cases l with
  | nil => rfl
  | cons y r =>
    simp only [spansOrdered, Bool.and_eq_true] at h
    exact h.2

theorem spansOrdered_head2 (x y : TextSpan) (l : List TextSpan)
    (h : spansOrdered (x :: y :: l) = true) : x.stop ≤ y.start := by
  simp only [spansOrdered, Bool.and_eq_true, decide_eq_true_eq] at h
  exact h.1

theorem spansOrdered_append_left (l1 l2 : List TextSpan)
    (h : spansOrdered (l1 ++ l2) = true) : spansOrdered l1 = true := by
  induction l1 with
  | nil => rfl
  | cons x l1' ih =>
    cases l1' with
    | nil => rfl
    | cons y r =>
      have h2 := spansOrdered_head2 x y (r ++ l2) (by simpa using h)
      have ht : spansOrdered ((y :: r) ++ l2) = true := by
        have := spansOrdered_tail x ((y :: r) ++ l2) (by simpa using h)
        simpa using this
      have h3 := ih ht
      simp only [spansOrdered, Bool.and_eq_true, decide_eq_true_eq]
      exact ⟨h2, h3⟩

theorem spansOrdered_suffix (l1 l2 : List TextSpan)
    (h : spansOrdered (l1 ++ l2) = true) : spansOrdered l2 = true := by
  induction l1 with
  | nil => simpa using h
  | cons x l1' ih => exact ih (spansOrdered_tail x _ (by simpa using h))

/-- In an ordered list whose members have `start ≤ stop`, every later span
begins at or after the head's end. -/
theorem spansOrdered_head_le (v : TextSpan) (post : List TextSpan)
    (h : spansOrdered (v :: post) = true)
    (hse : ∀ sp ∈ post, sp.start ≤ sp.stop) :
    ∀ sp ∈ post, v.stop ≤ sp.start := by
  induction post generalizing v with
  | nil =>
    intro sp hsp
    cases hsp
  | cons p post' ih =>
    intro sp hsp
    have h1 : v.stop ≤ p.start := spansOrdered_head2 v p post' h
    rcases List.mem_cons.mp hsp with rfl | hsp'
    · exact h1
    · have h2 := ih p (spansOrdered_tail v _ h)
        (fun q hq => hse q (List.mem_cons_of_mem p hq)) sp hsp'
      have h3 : p.start ≤ p.stop := hse p (List.mem_cons_self p post')
      omega

/-- In an ordered list whose members have `start ≤ stop`, every span before
the last one ends at or before the last span's start. -/
theorem spansOrdered_before_last (init : List TextSpan) (a : TextSpan)
    (h : spansOrdered (init ++ [a]) = true)
    (hse : ∀ sp ∈ init ++ [a], sp.start ≤ sp.stop) :
    ∀ sp ∈ init, sp.stop ≤ a.start := by
  intro sp hin
  obtain ⟨s, t, hst⟩ := List.append_of_mem hin
  have hsfx : spansOrdered (sp :: (t ++ [a])) = true := by
    apply spansOrdered_suffix s
    rw [hst] at h
    simpa using h
  have hmem : ∀ q ∈ t ++ [a], q.start ≤ q.stop := by
    intro q hq
    apply hse
    rw [hst]
    simp only [List.append_assoc, List.cons_append, List.mem_append,
      List.mem_cons]
    rcases List.mem_append.mp hq with h1 | h1
    · right; right; left; exact h1
    · right; right; right; simpa using h1
  exact spansOrdered_head_le sp (t ++ [a]) hsfx hmem a (by simp)

/-- A span with `start > end` anywhere in the processing list aborts the
splice with no output, whatever the buffer is. -/
theorem spliceRev_none_of_inverted (tr : List Nat → List Nat)
    (l : List TextSpan) (h : ∃ sp ∈ l, sp.stop < sp.start) :
    ∀ body, spliceRev tr l body = none := by
  induction l with
  | nil =>
    obtain ⟨sp, hsp, -⟩ := h
    cases hsp
  | cons s rest ih =>
    intro body
    simp only [spliceRev]
    by_cases hchk : s.start > s.stop ∨ s.stop > body.length
    · rw [if_pos hchk]
    · rw [if_neg hchk]
      by_cases hu : utf8Valid (seg body s.start s.stop) = false
      · rw [if_pos hu]
      · rw [if_neg hu]
        apply ih
        rcases h with ⟨sp, hsp, hinv⟩
        rcases List.mem_cons.mp hsp with rfl | hmem
        · exfalso
          push_neg at hchk
          omega
        · exact ⟨sp, hmem, hinv⟩

theorem take_splice_prefix (body X : List Nat) (m a : Nat) (hm : m ≤ a)
    (ha : a ≤ body.length) :
    (body.take a ++ X).take m = body.take m := by
  rw [List.take_append_eq_append_take]
  have hl : (body.take a).length = a := by
    rw [List.length_take]
    omega
  rw [hl]
  have h0 : m - a = 0 := by omega
  rw [h0, List.take_zero, List.append_nil, List.take_take,
    Nat.min_eq_left hm]

/-- If a span whose fragment (read from the original buffer) fails the
`utf8.Valid` check sits below every span processed before it, the splice
aborts with no output. -/
theorem spliceRev_bisect (tr : List Nat → List Nat) (v : TextSpan)
    (body0 : List Nat)
    (hbad : utf8Valid (seg body0 v.start v.stop) = false) :
    ∀ (l rest : List TextSpan) (body : List Nat),
      (∀ sp ∈ l, v.stop ≤ sp.start) →
      body.take v.stop = body0.take v.stop →
      spliceRev tr (l ++ v :: rest) body = none := by
  intro l
  induction l with
  | nil =>
    intro rest body _ hpre
    simp only [List.nil_append, spliceRev]
    by_cases hchk : v.start > v.stop ∨ v.stop > body.length
    · rw [if_pos hchk]
    · rw [if_neg hchk]
      have hseg : seg body v.start v.stop = seg body0 v.start v.stop := by
        rw [seg, seg, hpre]
      rw [hseg, if_pos hbad]
  | cons s l' ih =>
    intro rest body hge hpre
    simp only [List.cons_append, spliceRev]
    by_cases hchk : s.start > s.stop ∨ s.stop > body.length
    · rw [if_pos hchk]
    · rw [if_neg hchk]
      by_cases hu : utf8Valid (seg body s.start s.stop) = false
      · rw [if_pos hu]
      · rw [if_neg hu]
        push_neg at hchk
        have hvs : v.stop ≤ s.start := hge s (List.mem_cons_self s l')
        apply ih rest _ (fun q hq => hge q (List.mem_cons_of_mem s hq))
        rw [List.append_assoc,
          take_splice_prefix body _ v.stop s.start hvs (by omega), hpre]

theorem seg_glue {α : Type} (body : List α) (a m b : Nat) (h1 : a ≤ m)
    (h2 : m ≤ b) (h3 : m ≤ body.length) :
    seg body a m ++ seg body m b = seg body a b := by
  rw [seg, seg, seg]
  have ht : body.take m = (body.take b).take m := by
    rw [List.take_take, Nat.min_eq_left h2]
  conv_rhs => rw [← List.take_append_drop m (body.take b), ← ht]
  rw [List.drop_append_eq_append_drop]
  have hl : (body.take m).length = m := by
    rw [List.length_take]
    omega
  rw [hl]
  have h0 : a - m = 0 := by omega
  rw [h0, List.drop_zero]

theorem seg_drop {α : Type} (body : List α) (a m : Nat) (h1 : a ≤ m)
    (h3 : m ≤ body.length) :
    seg body a m ++ body.drop m = body.drop a := by
  rw [seg]
  conv_rhs => rw [← List.take_append_drop m body]
  rw [List.drop_append_eq_append_drop]
  have hl : (body.take m).length = m := by
    rw [List.length_take]
    omega
  rw [hl]
  have h0 : a - m = 0 := by omega
  rw [h0, List.drop_zero]

theorem seg_splice_eq (body X : List Nat) (x y a : Nat) (hy : y ≤ a)
    (ha : a ≤ body.length) :
    seg (body.take a ++ X) x y = seg body x y := by
  rw [seg, seg, take_splice_prefix body X y a hy ha]

/-- Splicing the highest span first leaves the spec value of the remaining
(lower) spans unchanged. -/
theorem splicedSpec_snoc (tr : List Nat → List Nat) (body : List Nat)
    (a : TextSpan) (ha : a.start ≤ body.length) :
    ∀ (spans : List TextSpan) (prev : Nat), prev ≤ a.start →
      (∀ sp ∈ spans, sp.start ≤ sp.stop ∧ sp.stop ≤ a.start) →
      splicedSpec tr body prev (spans ++ [a]) =
        splicedSpec tr
          (body.take a.start ++ tr (seg body a.start a.stop) ++
            body.drop a.stop) prev spans := by
  intro spans
  induction spans with
  | nil =>
    intro prev hprev _
    simp only [List.nil_append, splicedSpec]
    have hl : (body.take a.start).length = a.start := by
      rw [List.length_take]
      omega
    have h0 : prev - a.start = 0 := by omega
    conv_rhs => rw [List.append_assoc]
    rw [List.drop_append_eq_append_drop, hl, h0, List.drop_zero, seg,
      List.append_assoc]
  | cons s spans' ih =>
    intro prev hprev hmem
    obtain ⟨hs1, hs2⟩ := hmem s (List.mem_cons_self s spans')
    have hb : body.take a.start ++ tr (seg body a.start a.stop) ++
        body.drop a.stop =
        body.take a.start ++ (tr (seg body a.start a.stop) ++
          body.drop a.stop) := List.append_assoc _ _ _
    simp only [List.cons_append, splicedSpec, List.append_eq]
    rw [ih s.stop hs2 (fun q hq => hmem q (List.mem_cons_of_mem s hq)), hb,
      seg_splice_eq body _ prev s.start a.start (by omega) ha,
      seg_splice_eq body _ s.start s.stop a.start hs2 ha]

/-- Claim C7's engine-level statement: on an ordered, disjoint, boundary-valid
span set, the descending-order splice succeeds and produces exactly the
between-span segments interleaved with the transformed fragments. -/
theorem spliceRev_spec (tr : List Nat → List Nat) :
    ∀ (spans : List TextSpan) (body : List Nat),
      spansOrdered spans = true →
      (∀ sp ∈ spans, sp.start < sp.stop ∧ sp.stop ≤ body.length ∧
        utf8Valid (body.take sp.start) = true ∧
        utf8Valid (body.take sp.stop) = true) →
      spliceRev tr spans.reverse body = some (splicedSpec tr body 0 spans) := by
  intro spans
  induction spans using List.reverseRecOn with
  | nil =>
    intro body _ _
    simp [spliceRev, splicedSpec]
  | append_singleton init a ih =>
    intro body hord hval
    obtain ⟨ha1, ha2, ha3, ha4⟩ := hval a (by simp)
    have hrev : (init ++ [a]).reverse = a :: init.reverse := by simp
    rw [hrev]
    simp only [spliceRev]
    have hchk : ¬ (a.start > a.stop ∨ a.stop > body.length) := by omega
    rw [if_neg hchk]
    have hseg : utf8Valid (seg body a.start a.stop) = true :=
      utf8Valid_seg body a.start a.stop (by omega) ha2 ha3 ha4
    have hseg' : ¬ utf8Valid (seg body a.start a.stop) = false := by
      rw [hseg]
      simp
    rw [if_neg hseg']
    have hlow : ∀ sp ∈ init, sp.stop ≤ a.start :=
      spansOrdered_before_last init a hord
        (fun sp hsp => by have := hval sp hsp; omega)
    have hlen' : a.start ≤
        (body.take a.start ++ tr (seg body a.start a.stop) ++
          body.drop a.stop).length := by
      simp only [List.length_append, List.length_take]
      omega
    have hvals : ∀ sp ∈ init, sp.start < sp.stop ∧
        sp.stop ≤ (body.take a.start ++ tr (seg body a.start a.stop) ++
          body.drop a.stop).length ∧
        utf8Valid ((body.take a.start ++ tr (seg body a.start a.stop) ++
          body.drop a.stop).take sp.start) = true ∧
        utf8Valid ((body.take a.start ++ tr (seg body a.start a.stop) ++
          body.drop a.stop).take sp.stop) = true := by
      intro sp hsp
      obtain ⟨h1, h2, h3, h4⟩ := hval sp (List.mem_append.mpr (Or.inl hsp))
      have h5 := hlow sp hsp
      refine ⟨h1, by omega, ?_, ?_⟩
      · rw [List.append_assoc,
          take_splice_prefix body _ sp.start a.start (by omega) (by omega)]
        exact h3
      · rw [List.append_assoc,
          take_splice_prefix body _ sp.stop a.start (by omega) (by omega)]
        exact h4
    rw [ih _ (spansOrdered_append_left init [a] hord) hvals]
    have hse : ∀ q ∈ init, q.start ≤ q.stop ∧ q.stop ≤ a.start := by
      intro q hq
      have h1 := (hval q (List.mem_append.mpr (Or.inl hq))).1
      exact ⟨by omega, hlow q hq⟩
    rw [splicedSpec_snoc tr body a (by omega) init 0 (by omega) hse]

/-- With the identity transformer the interleaving collapses back to the
original buffer. -/
theorem splicedSpec_id (body : List Nat) :
    ∀ (spans : List TextSpan) (prev : Nat),
      spansOrdered spans = true →
      (∀ sp ∈ spans, sp.start ≤ sp.stop ∧ sp.stop ≤ body.length) →
      (∀ x ∈ spans.head?, prev ≤ x.start) →
      splicedSpec (fun x => x) body prev spans = body.drop prev := by
  intro spans
  induction spans with
  | nil =>
    intro prev _ _ _
    rfl
  | cons s rest ih =>
    intro prev hord hval hhead
    have hps : prev ≤ s.start := hhead s (by simp)
    obtain ⟨hs1, hs2⟩ := hval s (List.mem_cons_self s rest)
    simp only [splicedSpec]
    rw [ih s.stop (spansOrdered_tail s rest hord)
      (fun q hq => hval q (List.mem_cons_of_mem s hq)) ?_]
    · rw [seg_glue body prev s.start s.stop hps hs1 (by omega),
        seg_drop body prev s.stop (by omega) hs2]
    · intro x hx
      cases rest with
      | nil => cases hx
      | cons r rest' =>
        have hxr : r = x := by simpa using hx
        subst hxr
        exact spansOrdered_head2 s r rest' hord

/-- Claim C6: splicing with the identity transformer returns the original
buffer unchanged, for every ordered, disjoint span set whose spans lie in
bounds on valid character boundaries. -/
theorem c6_identity_splice (spans : List TextSpan) (body : List Nat)
    (hord : spansOrdered spans = true)
    (hval : ∀ sp ∈ spans, sp.start < sp.stop ∧ sp.stop ≤ body.length ∧
      utf8Valid (body.take sp.start) = true ∧
      utf8Valid (body.take sp.stop) = true) :
    spliceSpans (fun x => x) spans body = some body := by
  rw [spliceSpans, spliceRev_spec (fun x => x) spans body hord hval,
    splicedSpec_id body spans 0 hord
      (fun sp hsp => by have := hval sp hsp; exact ⟨by omega, this.2.1⟩)
      (fun x _ => Nat.zero_le _), List.drop_zero]

theorem c6_identity_splice_witness :
    spansOrdered [⟨1, 3, []⟩] = true ∧
    (∀ sp ∈ ([⟨1, 3, []⟩] : List TextSpan),
      sp.start < sp.stop ∧ sp.stop ≤ ([97, 98, 99, 100] : List Nat).length ∧
      utf8Valid (([97, 98, 99, 100] : List Nat).take sp.start) = true ∧
      utf8Valid (([97, 98, 99, 100] : List Nat).take sp.stop) = true) ∧
    spliceSpans (fun x => x) [⟨1, 3, []⟩] [97, 98, 99, 100]
      = some [97, 98, 99, 100] :=
  ⟨by decide, by decide, c6_identity_splice _ _ (by decide) (by decide)⟩

/-- Claim C7: for every ordered, disjoint, boundary-valid span set and every
transformer (which may change fragment length), the descending-order splice
returns exactly the untouched between-span segments interleaved, in order,
with the transformed fragments. -/
theorem c7_descending_splice_interleaves (tr : List Nat → List Nat)
    (spans : List TextSpan) (body : List Nat)
    (hord : spansOrdered spans = true)
    (hval : ∀ sp ∈ spans, sp.start < sp.stop ∧ sp.stop ≤ body.length ∧
      utf8Valid (body.take sp.start) = true ∧
      utf8Valid (body.take sp.stop) = true) :
    spliceSpans tr spans body = some (splicedSpec tr body 0 spans) :=
  spliceRev_spec tr spans body hord hval

theorem c7_descending_splice_interleaves_witness :
    spansOrdered [⟨1, 2, []⟩] = true ∧
    (∀ sp ∈ ([⟨1, 2, []⟩] : List TextSpan),
      sp.start < sp.stop ∧ sp.stop ≤ ([97, 98, 99] : List Nat).length ∧
      utf8Valid (([97, 98, 99] : List Nat).take sp.start) = true ∧
      utf8Valid (([97, 98, 99] : List Nat).take sp.stop) = true) ∧
    spliceSpans (fun x => x ++ x) [⟨1, 2, []⟩] [97, 98, 99]
      = some (splicedSpec (fun x => x ++ x) [97, 98, 99] 0 [⟨1, 2, []⟩]) :=
  ⟨by decide, by decide,
   c7_descending_splice_interleaves (fun x => x ++ x) _ _
     (by decide) (by decide)⟩

/-- Claim C8 is false as stated: a degenerate span with `start = end`
falling inside a multi-byte character passes every check (`utf8.Valid` of
the empty fragment is true), so the splice completes and returns a buffer
instead of raising a fatal condition. -/
theorem c8_counterexample :
    spansOrdered [⟨1, 1, []⟩] = true ∧
    utf8Valid [0xC3, 0xA9] = true ∧
    utf8Valid (List.take 1 [0xC3, 0xA9]) = false ∧
    spliceSpans (fun x => x) [⟨1, 1, []⟩] [0xC3, 0xA9]
      = some [0xC3, 0xA9] := by
  decide

/-- Claim C8 (amended): for every ordered span set containing a span with
`start > end`, or `end > len(buffer)`, or a non-degenerate span
(`start < end`) with a boundary inside a multi-byte character of a valid
buffer, the splice aborts with no output buffer, for every transformer. -/
theorem c8_invalid_span_aborts (tr : List Nat → List Nat)
    (spans : List TextSpan) (body : List Nat)
    (hord : spansOrdered spans = true)
    (hviol : ∃ sp ∈ spans, sp.stop < sp.start ∨ body.length < sp.stop ∨
      (sp.start < sp.stop ∧ utf8Valid body = true ∧
        (utf8Valid (body.take sp.start) = false ∨
         utf8Valid (body.take sp.stop) = false))) :
    spliceSpans tr spans body = none := by
  by_cases hinv : ∃ sp ∈ spans, sp.stop < sp.start
  · rw [spliceSpans]
    apply spliceRev_none_of_inverted
    obtain ⟨sp, h1, h2⟩ := hinv
    exact ⟨sp, List.mem_reverse.mpr h1, h2⟩
  · push_neg at hinv
    by_cases hlen : ∃ sp ∈ spans, body.length < sp.stop
    · obtain ⟨v, hv, hvl⟩ := hlen
      have hne : spans ≠ [] := by
        intro h
        subst h
        cases hv
      obtain ⟨init, a, hia⟩ := (List.eq_nil_or_concat spans).resolve_left hne
      rw [List.concat_eq_append] at hia
      subst hia
      have hstop : body.length < a.stop := by
        rcases List.mem_append.mp hv with h1 | h1
        · have h2 := spansOrdered_before_last init a hord
            (fun sp hsp => hinv sp hsp) v h1
          have ha : a.start ≤ a.stop := hinv a (by simp)
          omega
        · have : v = a := by simpa using h1
          subst this
          exact hvl
      rw [spliceSpans]
      have hr : (init ++ [a]).reverse = a :: init.reverse := by simp
      rw [hr]
      simp only [spliceRev]
      rw [if_pos (Or.inr (by omega))]
    · push_neg at hlen
      obtain ⟨v, hv, hcase⟩ := hviol
      have hbis : v.start < v.stop ∧ utf8Valid body = true ∧
          (utf8Valid (body.take v.start) = false ∨
           utf8Valid (body.take v.stop) = false) := by
        rcases hcase with h | h | h
        · exact absurd h (by have := hinv v hv; omega)
        · exact absurd h (by have := hlen v hv; omega)
        · exact h
      obtain ⟨hvs, hvb, hbound⟩ := hbis
      have hbad : utf8Valid (seg body v.start v.stop) = false :=
        utf8Valid_seg_bisect body v.start v.stop hvb hvs (hlen v hv) hbound
      obtain ⟨pre, post, hpp⟩ := List.append_of_mem hv
      subst hpp
      rw [spliceSpans]
      have hr : (pre ++ v :: post).reverse =
          post.reverse ++ v :: pre.reverse := by
        simp [List.reverse_append]
      rw [hr]
      apply spliceRev_bisect tr v body hbad post.reverse pre.reverse body
        ?_ rfl
      intro sp hsp
      have hsp' : sp ∈ post := List.mem_reverse.mp hsp
      have hsfx : spansOrdered (v :: post) = true :=
        spansOrdered_suffix pre _ hord
      exact spansOrdered_head_le v post hsfx
        (fun q hq => hinv q (List.mem_append.mpr
          (Or.inr (List.mem_cons_of_mem v hq)))) sp hsp'

theorem c8_invalid_span_aborts_witness :
    spansOrdered [⟨1, 2, []⟩] = true ∧
    (∃ sp ∈ ([⟨1, 2, []⟩] : List TextSpan),
      sp.stop < sp.start ∨ ([0xC3, 0xA9, 0x61] : List Nat).length < sp.stop ∨
      (sp.start < sp.stop ∧ utf8Valid [0xC3, 0xA9, 0x61] = true ∧
        (utf8Valid (([0xC3, 0xA9, 0x61] : List Nat).take sp.start) = false ∨
         utf8Valid (([0xC3, 0xA9, 0x61] : List Nat).take sp.stop) = false))) ∧
    spliceSpans (fun x => x) [⟨1, 2, []⟩] [0xC3, 0xA9, 0x61] = none :=
  ⟨by decide, by decide,
   c8_invalid_span_aborts (fun x => x) _ _ (by decide) (by decide)⟩

theorem takeWhile_all {α : Type} (p : α → Bool) :
    ∀ (t : List α), (∀ c ∈ t, p c = true) → t.takeWhile p = t := by
  intro t ht
  induction t with
  | nil => rfl
  | cons c t' ih =>
    rw [List.takeWhile_cons, if_pos (ht c (List.mem_cons_self c t')),
      ih (fun x hx => ht x (List.mem_cons_of_mem c hx))]

theorem dropWhile_all {α : Type} (p : α → Bool) :
    ∀ (t : List α), (∀ c ∈ t, p c = true) → t.dropWhile p = [] := by
  intro t ht
  induction t with
  | nil => rfl
  | cons c t' ih =>
    rw [List.dropWhile_cons, if_pos (ht c (List.mem_cons_self c t')),
      ih (fun x hx => ht x (List.mem_cons_of_mem c hx))]

theorem dropWhile_head_false {α : Type} (p : α → Bool) :
    ∀ (l : List α) (x : α) (xs : List α),
      l.dropWhile p = x :: xs → p x = false := by
  intro l
  induction l with
  | nil =>
    intro x xs h
    cases h
  | cons c l' ih =>
    intro x xs h
    rw [List.dropWhile_cons] at h
    by_cases hc : p c = true
    · rw [if_pos hc] at h
      exact ih x xs h
    · rw [if_neg hc] at h
      cases h
      cases hpc : p c
      · rfl
      · exact absurd hpc hc

theorem isPre_self_append : ∀ (w r : List Char), isPre w (w ++ r) = true := by
  intro w r
  induction w with
  | nil => rfl
  | cons c w' ih => simp [isPre, ih]

/-- The run splitter skips a non-kept prefix. -/
theorem splitRunsAux_delims (keep : Char → Bool) (d y : List Char)
    (hd : ∀ c ∈ d, keep c = false) :
    splitRunsAux keep (d ++ y) [] = splitRunsAux keep y [] := by
  induction d with
  | nil => rfl
  | cons c d' ih =>
    have hc : keep c = false := hd c (List.mem_cons_self c d')
    simp only [List.cons_append, splitRunsAux, hc, Bool.false_eq_true,
      if_false, List.isEmpty_nil, if_true]
    exact ih (fun x hx => hd x (List.mem_cons_of_mem c hx))

/-- The run splitter accumulates a kept run. -/
theorem splitRunsAux_word (keep : Char → Bool) (w : List Char) :
    ∀ (y acc : List Char), (∀ c ∈ w, keep c = true) →
    splitRunsAux keep (w ++ y) acc = splitRunsAux keep y (w.reverse ++ acc) := by
  induction w with
  | nil =>
    intro y acc _
    rfl
  | cons c w' ih =>
    intro y acc hw
    have hc : keep c = true := hw c (List.mem_cons_self c w')
    simp only [List.cons_append, splitRunsAux, hc, if_true, List.append_eq]
    rw [ih y (c :: acc) (fun x hx => hw x (List.mem_cons_of_mem c hx)),
      List.reverse_cons, List.append_assoc, List.singleton_append]

/-- At a run boundary (end of input or a non-kept character), the
accumulated run is flushed. -/
theorem splitRunsAux_flush (keep : Char → Bool) (y acc : List Char)
    (hacc : acc ≠ [])
    (hy : y = [] ∨ ∃ c y', y = c :: y' ∧ keep c = false) :
    splitRunsAux keep y acc = acc.reverse :: splitRunsAux keep y [] := by
  have hne : acc.isEmpty = false := by
    cases acc with
    | nil => exact absurd rfl hacc
    | cons a as => rfl
  rcases hy with rfl | ⟨c, y', rfl, hc⟩
  · simp [splitRunsAux, hne]
  · simp only [splitRunsAux, hc, Bool.false_eq_true, if_false, hne,
      List.isEmpty_nil, if_true]

theorem splitRuns_no_keep (keep : Char → Bool) (t : List Char)
    (ht : ∀ c ∈ t, keep c = false) : splitRuns keep t = [] := by
  have := splitRunsAux_delims keep t [] ht
  rw [List.append_nil] at this
  exact this

/-- One step of the run decomposition: when a kept character exists, the
runs are the first maximal kept run followed by the runs of the remainder. -/
theorem splitRuns_step (keep : Char → Bool) (t : List Char)
    (hex : t.any keep = true) :
    splitRuns keep t =
      ((t.dropWhile (fun c => !keep c)).takeWhile keep) ::
        splitRuns keep ((t.dropWhile (fun c => !keep c)).dropWhile keep) := by
  cases hrest : t.dropWhile (fun c => !keep c) with
  | nil =>
    exfalso
    obtain ⟨c, hc, hkc⟩ := List.any_eq_true.mp hex
    have hall : t.takeWhile (fun c => !keep c) = t := by
      have := List.takeWhile_append_dropWhile (fun c => !keep c) t
      rw [hrest, List.append_nil] at this
      exact this
    rw [← hall] at hc
    have := List.mem_takeWhile_imp hc
    rw [hkc] at this
    cases this
  | cons x rest' =>
    have hx : keep x = true := by
      have := dropWhile_head_false (fun c => !keep c) t x rest' hrest
      simpa using this
    have hw : (x :: rest').takeWhile keep = x :: rest'.takeWhile keep := by
      rw [List.takeWhile_cons, if_pos hx]
    have hsplit : t = t.takeWhile (fun c => !keep c) ++ (x :: rest') := by
      rw [← hrest, List.takeWhile_append_dropWhile]
    have hwr : (x :: rest') =
        (x :: rest').takeWhile keep ++ (x :: rest').dropWhile keep :=
      (List.takeWhile_append_dropWhile keep (x :: rest')).symm
    conv_lhs => rw [splitRuns, hsplit]
    rw [splitRunsAux_delims keep _ _
      (fun c hc => by simpa using List.mem_takeWhile_imp hc)]
    conv_lhs => rw [hwr]
    rw [splitRunsAux_word keep _ _ []
      (fun c hc => List.mem_takeWhile_imp hc), List.append_nil]
    rw [splitRunsAux_flush keep _ _
      (by rw [hw]; simp)
      (by
        cases hr : (x :: rest').dropWhile keep with
        | nil => exact Or.inl rfl
        | cons z y' =>
          exact Or.inr ⟨z, y', rfl,
            dropWhile_head_false keep (x :: rest') z y' hr⟩)]
    rw [List.reverse_reverse]
    rfl

/-- Models `unicode.IsLetter` on the ASCII range (the Latin letters); the
claims considered do not depend on non-ASCII letter classes. -/
def isLetterGo (c : Char) : Bool :=
  c.isAlpha

/-- Models `unicode.IsUpper` on the ASCII range. -/
def isUpperGo (c : Char) : Bool :=
  c.isUpper

/-- Models `strings.ToLower` per character on the ASCII range. -/
def toLowerGo (c : Char) : Char :=
  c.toLower

/-- Models `strings.Title`: upper-cases each letter that begins a word
(a letter not preceded by a letter). -/
def titleGoAux : Bool → List Char → List Char
  | _, [] => []
  | prevLetter, c :: r =>
    (if isLetterGo c && !prevLetter then c.toUpper else c) ::
      titleGoAux (isLetterGo c) r

/-- Models `strings.Title`. -/
def titleGo (s : List Char) : List Char :=
  titleGoAux false s

/-- Membership in the vowel string "aeiou" of pigWord. -/
def isVowel (c : Char) : Bool :=
  c = 'a' || c = 'e' || c = 'i' || c = 'o' || c = 'u'

/-- Models `pigWord` of piglatin.go: the first-vowel scan loop is rendered
as the length of the vowel-free prefix. -/
def pigWord (word : List Char) : List Char :=
  match word with
  | [] => []
  | w0 :: _ =>
    let isUp := isUpperGo w0
    let lowerWord := word.map toLowerGo
    if isVowel (lowerWord.getD 0 'a') then
      let res := lowerWord ++ "way".data
      if isUp then titleGo res else res
    else
      let i := (lowerWord.takeWhile (fun c => !isVowel c)).length
      if i = lowerWord.length then lowerWord ++ "ay".data
      else
        let res := lowerWord.drop i ++ lowerWord.take i ++ "ay".data
        if isUp then titleGo res else res

/-- Models `strings.Index` (first occurrence of `w` in `s`); `none` models
Go's -1. -/
def firstMatch : List Char → List Char → Option Nat
  | [], w => if isPre w [] then some 0 else none
  | c :: r, w =>
    if isPre w (c :: r) then some 0 else (firstMatch r w).map (· + 1)

/-- The word loop of `ToPigLatin`: `start` is the running byte offset into
`s`; each word is located with `strings.Index` in `s[start:]`, the
delimiter bytes before it are copied verbatim, and the word itself is
replaced by `pigWord`.  After the loop the trailing bytes are copied. -/
def toPigLatinAux (s : List Char) : List (List Char) → Nat → List Char
  | [], start => if start < s.length then s.drop start else []
  | w :: ws, start =>
    match firstMatch (s.drop start) w with
    | some idx =>
      seg s start (start + idx) ++ pigWord w ++
        toPigLatinAux s ws (start + idx + w.length)
    | none => toPigLatinAux s ws start

/-- Models `ToPigLatin` of piglatin.go: the words are the maximal letter
runs (`strings.FieldsFunc` with `!unicode.IsLetter`). -/
def ToPigLatin (s : List Char) : List Char :=
  toPigLatinAux s (splitRuns isLetterGo s) 0

theorem pigSpec_dec (s : List Char) (hs : ¬ s = []) :
    ((s.dropWhile (fun c => !isLetterGo c)).dropWhile isLetterGo).length <
      s.length := by
  induction s with
  | nil => exact absurd rfl hs
  | cons c s' ih =>
    by_cases hc : isLetterGo c = true
    · have hd : (s'.dropWhile isLetterGo).length ≤ s'.length :=
        (List.dropWhile_suffix isLetterGo).length_le
      simp only [List.dropWhile_cons, hc, Bool.not_true, Bool.false_eq_true,
        if_false, if_true, List.length_cons]
      omega
    · have hc' : isLetterGo c = false := by
        cases hcc : isLetterGo c
        · rfl
        · exact absurd hcc hc
      simp only [List.dropWhile_cons, hc', Bool.not_false, if_true,
        List.length_cons]
      by_cases hs' : s' = []
      · subst hs'
        simp
      · have := ih hs'
        omega

/-- The behaviour claim C10 describes: every maximal non-letter run is
preserved in place and every maximal letter run is replaced by `pigWord`. -/
def pigSpec (s : List Char) : List Char :=
  if hs : s = [] then []
  else
    s.takeWhile (fun c => !isLetterGo c) ++
    pigWord ((s.dropWhile (fun c => !isLetterGo c)).takeWhile isLetterGo) ++
    pigSpec ((s.dropWhile (fun c => !isLetterGo c)).dropWhile isLetterGo)
termination_by s.length
decreasing_by
  exact pigSpec_dec s hs

/-- `strings.Index` finds a non-empty all-letter word placed right after a
run of non-letters at exactly the length of that run. -/
theorem firstMatch_canonical (w : List Char) (hw : w ≠ [])
    (hwk : ∀ c ∈ w, isLetterGo c = true) :
    ∀ (d r : List Char), (∀ c ∈ d, isLetterGo c = false) →
      firstMatch (d ++ (w ++ r)) w = some d.length := by
  intro d
  induction d with
  | nil =>
    intro r _
    cases w with
    | nil => exact absurd rfl hw
    | cons w0 w' =>
      simp only [List.nil_append, List.cons_append, firstMatch,
        isPre_self_append (w0 :: w') r]
      rw [if_pos]
      · rfl
      · have := isPre_self_append (w0 :: w') r
        simpa [List.cons_append] using this
  | cons c d' ih =>
    intro r hd
    have hnp : isPre w (c :: (d' ++ (w ++ r))) = false := by
      cases w with
      | nil => exact absurd rfl hw
      | cons w0 w' =>
        have hl : isLetterGo w0 = true :=
          hwk w0 (List.mem_cons_self w0 w')
        have hcl : isLetterGo c = false := hd c (List.mem_cons_self c d')
        have hne : w0 ≠ c := by
          intro he
          rw [he, hcl] at hl
          cases hl
        simp [isPre, hne]
    simp only [List.cons_append, firstMatch, List.append_eq, hnp,
      Bool.false_eq_true, if_false]
    rw [ih r (fun x hx => hd x (List.mem_cons_of_mem c hx))]
    simp

theorem toPigLatinAux_spec (n : Nat) :
    ∀ (s : List Char) (start : Nat), s.length - start ≤ n →
      toPigLatinAux s (splitRuns isLetterGo (s.drop start)) start =
        pigSpec (s.drop start) := by
  induction n with
  | zero =>
    intro s start h0
    have ht : s.drop start = [] := by
      apply List.eq_nil_of_length_eq_zero
      rw [List.length_drop]
      omega
    rw [ht]
    have hp : pigSpec [] = [] := by
      rw [pigSpec]
      simp
    rw [hp]
    simp only [splitRuns, splitRunsAux, List.isEmpty_nil, if_true,
      toPigLatinAux]
    split
    · exact ht
    · rfl
  | succ n ih =>
    intro s start hsn
    cases hany : (s.drop start).any isLetterGo with
    | false =>
      have hnk : ∀ c ∈ s.drop start, isLetterGo c = false := by
        intro c hc
        have h2 := List.any_eq_false.mp hany c hc
        cases hcc : isLetterGo c
        · rfl
        · exact absurd hcc h2
      rw [splitRuns_no_keep _ _ hnk]
      by_cases htn : s.drop start = []
      · rw [htn]
        have hp : pigSpec [] = [] := by
          rw [pigSpec]
          simp
        rw [hp]
        simp only [toPigLatinAux]
        split
        · exact htn
        · rfl
      · have hlt : start < s.length := by
          by_contra hge
          exact htn (List.drop_eq_nil_of_le (by omega))
        simp only [toPigLatinAux, if_pos hlt]
        rw [pigSpec, dif_neg htn,
          takeWhile_all _ _ (fun c hc => by rw [hnk c hc]; rfl),
          dropWhile_all _ _ (fun c hc => by rw [hnk c hc]; rfl)]
        simp only [List.takeWhile_nil, List.dropWhile_nil]
        have hp : pigSpec [] = [] := by
          rw [pigSpec]
          simp
        have hpw : pigWord [] = [] := rfl
        rw [hp, hpw, List.append_nil, List.append_nil]
    | true =>
      have htn : s.drop start ≠ [] := by
        intro h
        rw [h] at hany
        exact absurd hany (by simp)
      obtain ⟨d, hd_eq⟩ : ∃ d,
          (s.drop start).takeWhile (fun c => !isLetterGo c) = d := ⟨_, rfl⟩
      obtain ⟨rest, hre_eq⟩ : ∃ x,
          (s.drop start).dropWhile (fun c => !isLetterGo c) = x := ⟨_, rfl⟩
      obtain ⟨w, hw_eq⟩ : ∃ w, rest.takeWhile isLetterGo = w := ⟨_, rfl⟩
      obtain ⟨r, hr_eq⟩ : ∃ r, rest.dropWhile isLetterGo = r := ⟨_, rfl⟩
      have hT : s.drop start = d ++ (w ++ r) := by
        have h1 := List.takeWhile_append_dropWhile
          (fun c => !isLetterGo c) (s.drop start)
        have h2 := List.takeWhile_append_dropWhile isLetterGo rest
        rw [hd_eq, hre_eq] at h1
        rw [hw_eq, hr_eq] at h2
        rw [← h1, ← h2]
      have hdk : ∀ c ∈ d, isLetterGo c = false := by
        intro c hc
        rw [← hd_eq] at hc
        simpa using List.mem_takeWhile_imp hc
      have hwk : ∀ c ∈ w, isLetterGo c = true := by
        intro c hc
        rw [← hw_eq] at hc
        exact List.mem_takeWhile_imp hc
      have hwne : w ≠ [] := by
        cases hrc : rest with
        | nil =>
          exfalso
          obtain ⟨c, hc, hl⟩ := List.any_eq_true.mp hany
          rw [hrc] at hw_eq hr_eq
          simp only [List.takeWhile_nil] at hw_eq
          simp only [List.dropWhile_nil] at hr_eq
          rw [hT, ← hw_eq, ← hr_eq] at hc
          simp only [List.append_nil] at hc
          rw [hdk c hc] at hl
          cases hl
        | cons x rest' =>
          have hx : isLetterGo x = true := by
            have := dropWhile_head_false (fun c => !isLetterGo c)
              (s.drop start) x rest' (by rw [hre_eq, hrc])
            simpa using this
          rw [← hw_eq, hrc, List.takeWhile_cons, if_pos hx]
          simp
      have hfm : firstMatch (s.drop start) w = some d.length := by
        rw [hT]
        exact firstMatch_canonical w hwne hwk d r hdk
      rw [splitRuns_step isLetterGo (s.drop start) hany, hre_eq, hw_eq,
        hr_eq]
      simp only [toPigLatinAux]
      rw [hfm]
      show seg s start (start + d.length) ++ pigWord w ++
        toPigLatinAux s (splitRuns isLetterGo r)
          (start + d.length + w.length) = _
      rw [pigSpec, dif_neg htn, hd_eq, hre_eq, hw_eq, hr_eq]
      have hseg : seg s start (start + d.length) = d := by
        rw [seg, List.drop_take]
        have he : start + d.length - start = d.length := by omega
        rw [he, hT]
        exact List.take_left d (w ++ r)
      have hdrop : s.drop (start + d.length + w.length) = r := by
        have h1 : start + d.length + w.length =
            start + (d.length + w.length) := by omega
        rw [h1, ← List.drop_drop, hT, ← List.append_assoc]
        have h2 : d.length + w.length = (d ++ w).length := by
          rw [List.length_append]
        rw [h2]
        exact List.drop_left (d ++ w) r
      rw [hseg]
      have hw1 : 0 < w.length := List.length_pos.mpr hwne
      have hrec := ih s (start + d.length + w.length) (by omega)
      rw [hdrop] at hrec
      rw [hrec]

/-- Claim C10: `ToPigLatin` preserves every maximal non-letter run in place
and replaces each maximal letter run with `pigWord`; in particular an input
with no letters is returned unchanged. -/
theorem c10_toPigLatin_runs (s : List Char) :
    ToPigLatin s = pigSpec s ∧
    ((∀ c ∈ s, isLetterGo c = false) → ToPigLatin s = s) := by
  have hmain : ToPigLatin s = pigSpec s := by
    have h1 := toPigLatinAux_spec s.length s 0 (by omega)
    rw [List.drop_zero] at h1
    exact h1
  refine ⟨hmain, fun hnl => ?_⟩
  rw [hmain]
  by_cases hs : s = []
  · rw [hs, pigSpec]
    simp
  · rw [pigSpec, dif_neg hs,
      takeWhile_all _ _ (fun c hc => by rw [hnl c hc]; rfl),
      dropWhile_all _ _ (fun c hc => by rw [hnl c hc]; rfl)]
    simp only [List.takeWhile_nil, List.dropWhile_nil]
    have hp : pigSpec [] = [] := by
      rw [pigSpec]
      simp
    have hpw : pigWord [] = [] := rfl
    rw [hp, hpw, List.append_nil, List.append_nil]

theorem c10_toPigLatin_runs_witness :
    (∀ c ∈ "-- !!".data, isLetterGo c = false) ∧
    ToPigLatin "-- !!".data = "-- !!".data :=
  ⟨by decide, (c10_toPigLatin_runs "-- !!".data).2 (by decide)⟩

/-- An opening delimiter (style A `{{<` or style B `{{%`) starts at `p`. -/
def openAtB (body : List Char) (p : Nat) : Bool :=
  isPre "\x7b\x7b<".data (body.drop p) || isPre "\x7b\x7b%".data (body.drop p)

/-- A closing delimiter (style A `>}}` or style B `%}}`) starts at `q`. -/
def closeAtB (body : List Char) (q : Nat) : Bool :=
  isPre ">\x7d\x7d".data (body.drop q) || isPre "%\x7d\x7d".data (body.drop q)

/-- The pageparser item-type name of the opening delimiter at `p`. -/
def leftTypAt (body : List Char) (p : Nat) : String :=
  if isPre "\x7b\x7b<".data (body.drop p) then "tLeftDelimScNoMarkup"
  else "tLeftDelimScWithMarkup"

/-- The pageparser item-type name of the closing delimiter at `q`. -/
def rightTypAt (body : List Char) (q : Nat) : String :=
  if isPre ">\x7d\x7d".data (body.drop q) then "tRightDelimScNoMarkup"
  else "tRightDelimScWithMarkup"

/-- First position at or after `pos` satisfying `f`, scanning left to
right. -/
def findDelim (f : List Char → Nat → Bool) (body : List Char) (pos : Nat) :
    Option Nat :=
  if h : pos < body.length then
    if f body pos then some pos else findDelim f body (pos + 1)
  else none
termination_by body.length - pos

theorem findDelim_some (f : List Char → Nat → Bool) (body : List Char)
    (pos p' : Nat) (h : findDelim f body pos = some p') :
    pos ≤ p' ∧ p' < body.length ∧ f body p' = true := by
  rw [findDelim] at h
  by_cases hp : pos < body.length
  · rw [dif_pos hp] at h
    by_cases hf : f body pos = true
    · rw [if_pos hf] at h
      cases h
      exact ⟨le_refl _, hp, hf⟩
    · rw [if_neg hf] at h
      obtain ⟨h1, h2, h3⟩ := findDelim_some f body (pos + 1) p' h
      exact ⟨by omega, h2, h3⟩
  · rw [dif_neg hp] at h
    cases h
termination_by body.length - pos
decreasing_by omega

theorem findDelim_min (f : List Char → Nat → Bool) (body : List Char)
    (pos r : Nat) (hr : pos ≤ r) (hl : r < body.length)
    (hf : f body r = true) :
    ∃ p', findDelim f body pos = some p' ∧ p' ≤ r := by
  rw [findDelim, dif_pos (by omega : pos < body.length)]
  by_cases hfp : f body pos = true
  · rw [if_pos hfp]
    exact ⟨pos, rfl, hr⟩
  · rw [if_neg hfp]
    have hne : pos ≠ r := fun he => hfp (he ▸ hf)
    exact findDelim_min f body (pos + 1) r (by omega) hl hf
termination_by body.length - pos
decreasing_by omega

theorem findDelim_none (f : List Char → Nat → Bool) (body : List Char)
    (pos : Nat) (h : findDelim f body pos = none) :
    ∀ r, pos ≤ r → r < body.length → f body r = false := by
  intro r hpr hrl
  rw [findDelim] at h
  by_cases hp : pos < body.length
  · rw [dif_pos hp] at h
    by_cases hf : f body pos = true
    · rw [if_pos hf] at h
      cases h
    · rw [if_neg hf] at h
      by_cases hpr' : pos = r
      · subst hpr'
        cases hff : f body pos
        · rfl
        · exact absurd hff hf
      · exact findDelim_none f body (pos + 1) h r (by omega) hrl
  · exfalso
    omega
termination_by body.length - pos
decreasing_by omega

theorem isPre_length : ∀ (w s : List Char), isPre w s = true →
    w.length ≤ s.length := by
  intro w
  induction w with
  | nil =>
    intro s _
    simp
  | cons a w' ih =>
    intro s h
    cases s with
    | nil => cases h
    | cons b s' =>
      simp only [isPre, Bool.and_eq_true] at h
      have := ih s' h.2
      simp only [List.length_cons]
      omega

theorem isPre_getD : ∀ (w s : List Char) (d : Char), isPre w s = true →
    ∀ i, i < w.length → s.getD i d = w.getD i d := by
  intro w
  induction w with
  | nil =>
    intro s d _ i hi
    simp at hi
  | cons a w' ih =>
    intro s d h i hi
    cases s with
    | nil => cases h
    | cons b s' =>
      simp only [isPre, Bool.and_eq_true, decide_eq_true_eq] at h
      cases i with
      | zero =>
        simp only [List.getD_cons_zero]
        exact h.1.symm
      | succ i' =>
        simp only [List.getD_cons_succ]
        exact ih s' d h.2 i' (by simpa using hi)

theorem openAtB_len (body : List Char) (p : Nat)
    (h : openAtB body p = true) : p + 3 ≤ body.length := by
  rw [openAtB] at h
  simp only [Bool.or_eq_true] at h
  rcases h with h1 | h1
  · have h2 := isPre_length _ _ h1
    rw [List.length_drop] at h2
    simp at h2
    omega
  · have h2 := isPre_length _ _ h1
    rw [List.length_drop] at h2
    simp at h2
    omega

theorem closeAtB_len (body : List Char) (q : Nat)
    (h : closeAtB body q = true) : q + 3 ≤ body.length := by
  rw [closeAtB] at h
  simp only [Bool.or_eq_true] at h
  rcases h with h1 | h1
  · have h2 := isPre_length _ _ h1
    rw [List.length_drop] at h2
    simp at h2
    omega
  · have h2 := isPre_length _ _ h1
    rw [List.length_drop] at h2
    simp at h2
    omega

theorem getD_pat_open (body : List Char) (p : Nat)
    (ho : openAtB body p = true) : body.getD p ' ' = '\x7b' := by
  rw [openAtB] at ho
  simp only [Bool.or_eq_true] at ho
  rcases ho with h1 | h1
  · have h2 := isPre_getD _ _ ' ' h1 0 (by decide)
    rw [getD_drop] at h2
    simpa using h2
  · have h2 := isPre_getD _ _ ' ' h1 0 (by decide)
    rw [getD_drop] at h2
    simpa using h2

theorem getD_pat_close (body : List Char) (q : Nat)
    (hc : closeAtB body q = true) :
    body.getD (q + 1) ' ' = '\x7d' ∧ body.getD (q + 2) ' ' = '\x7d' := by
  rw [closeAtB] at hc
  simp only [Bool.or_eq_true] at hc
  rcases hc with h1 | h1
  all_goals
    constructor
  · have h2 := isPre_getD _ _ ' ' h1 1 (by decide)
    rw [getD_drop] at h2
    simpa using h2
  · have h2 := isPre_getD _ _ ' ' h1 2 (by decide)
    rw [getD_drop] at h2
    simpa using h2
  · have h2 := isPre_getD _ _ ' ' h1 1 (by decide)
    rw [getD_drop] at h2
    simpa using h2
  · have h2 := isPre_getD _ _ ' ' h1 2 (by decide)
    rw [getD_drop] at h2
    simpa using h2

/-- An opening delimiter at `p` and a closing delimiter at `q ≤ p` cannot
overlap: the closing delimiter ends at or before `p`. -/
theorem open_close_sep (body : List Char) (p q : Nat)
    (ho : openAtB body p = true) (hc : closeAtB body q = true)
    (hqp : q ≤ p) : q + 3 ≤ p := by
  by_contra hcon
  have hp0 := getD_pat_open body p ho
  obtain ⟨hq1, hq2⟩ := getD_pat_close body q hc
  have hp3 : p = q ∨ p = q + 1 ∨ p = q + 2 := by omega
  rcases hp3 with rfl | h | h
  · rw [closeAtB] at hc
    simp only [Bool.or_eq_true] at hc
    rcases hc with h1 | h1
    · have h2 := isPre_getD _ _ ' ' h1 0 (by decide)
      rw [getD_drop] at h2
      simp only [Nat.add_zero] at h2
      rw [hp0] at h2
      exact absurd h2 (by decide)
    · have h2 := isPre_getD _ _ ' ' h1 0 (by decide)
      rw [getD_drop] at h2
      simp only [Nat.add_zero] at h2
      rw [hp0] at h2
      exact absurd h2 (by decide)
  · subst h
    rw [hp0] at hq1
    exact absurd hq1 (by decide)
  · subst h
    rw [hp0] at hq2
    exact absurd hq2 (by decide)

/-- Modelled from the spec: the Lexer of section 4.1 is implemented by the
external Hugo `pageparser` library and is absent from the repository's own
sources, so it is modelled here from the specification's words.  Scanning
from `pos`: text before the next opening delimiter becomes a `Text` token;
a delimited construct becomes an opening-delimiter token, a close-marker or
interior token (the interior is not sub-tokenized beyond the close-marker
check), and a closing-delimiter token; an opening delimiter with no closing
delimiter of either style before buffer end does not abort the pass — the
remainder is emitted as literal text, preserving all bytes (the non-fatal
"unterminated tag" condition of section 7). -/
def lexSpecAux (body : List Char) (pos : Nat) : List Tok :=
  if hp : pos < body.length then
    match h1 : findDelim openAtB body pos with
    | none => [⟨"tText", body.drop pos, pos, body.length⟩]
    | some p =>
      match h2 : findDelim closeAtB body (p + 3) with
      | none =>
        (if pos < p then [⟨"tText", seg body pos p, pos, p⟩] else []) ++
          [⟨"tText", body.drop p, p, body.length⟩]
      | some q =>
        (if pos < p then [⟨"tText", seg body pos p, pos, p⟩] else []) ++
        ⟨leftTypAt body p, seg body p (p + 3), p, p + 3⟩ ::
        ((if p + 3 < q then
            (match trimSpace (seg body (p + 3) q) with
             | '/' :: _ => [⟨"tScClose", seg body (p + 3) q, p + 3, q⟩]
             | _ => [⟨"tScInner", seg body (p + 3) q, p + 3, q⟩])
          else []) ++
         ⟨rightTypAt body q, seg body q (q + 3), q, q + 3⟩ ::
         lexSpecAux body (q + 3))
  else []
termination_by body.length - pos
decreasing_by
  have ha := findDelim_some openAtB body pos p h1
  have hb := findDelim_some closeAtB body (p + 3) q h2
  omega

/-- Modelled from the spec: the full lexing pass over a buffer. -/
def lexSpec (body : List Char) : List Tok :=
  lexSpecAux body 0

/-- `ConvertBodyToMdocTokens` with the external lexer replaced by the
spec-modelled one: tokenize, then render. -/
def convertSpec (body : List Char) : List Char :=
  renderToMdoc (lexSpec body) body

theorem renderStep_next (toks : List Tok) (body : List Char) (i : Nat) :
    (renderStep toks body i).2 = i + 1 ∨
    (renderStep toks body i).2 = (getInterior toks body i).2.2 + 1 := by
  simp only [renderStep]
  repeat' split
  all_goals simp

theorem renderGo_at_last (toks : List Tok) (t : Tok) (body : List Char)
    (ht : t.typ = "tText") :
    ∃ X, renderGo (toks ++ [t]) body toks.length = X ++ t.val := by
  rw [renderGo]
  have hlen : toks.length < (toks ++ [t]).length := by
    rw [List.length_append]
    simp
  rw [dif_pos hlen]
  have hget : (toks ++ [t]).getD toks.length dTok = t := by
    rw [List.getD_append_right _ _ _ _ (le_refl _)]
    simp
  have hstep : renderStep (toks ++ [t]) body toks.length = (t.val, toks.length + 1) := by
    simp only [renderStep, hget, ht]
    simp
  rw [hstep]
  rw [renderGo]
  have hlen2 : ¬ toks.length + 1 < (toks ++ [t]).length := by
    rw [List.length_append]
    simp
  rw [dif_neg hlen2, List.append_nil]
  exact ⟨[], by rw [List.nil_append]⟩

/-- When the final token is a `Text` token, the renderer's output ends with
its bytes, verbatim. -/
theorem renderGo_last_text (toks : List Tok) (t : Tok) (body : List Char)
    (ht : t.typ = "tText") :
    ∀ (n i : Nat), toks.length - i ≤ n → i ≤ toks.length →
      ∃ X, renderGo (toks ++ [t]) body i = X ++ t.val := by
  intro n
  induction n with
  | zero =>
    intro i h0 hi
    have hie : i = toks.length := by omega
    subst hie
    exact renderGo_at_last toks t body ht
  | succ n ih =>
    intro i hn hi
    by_cases hie : i = toks.length
    · subst hie
      exact renderGo_at_last toks t body ht
    · have hilt : i < toks.length := by omega
      rw [renderGo]
      have hlen : i < (toks ++ [t]).length := by
        rw [List.length_append]
        simp
        omega
      rw [dif_pos hlen]
      have hprog := renderStep_progress (toks ++ [t]) body i
      have hnext : (renderStep (toks ++ [t]) body i).2 ≤ toks.length := by
        rcases renderStep_next (toks ++ [t]) body i with h1 | h1
        · omega
        · rcases getInterior_spec (toks ++ [t]) body i with ⟨h2, -, -, -⟩ |
            ⟨h2, h3, h4, -⟩
          · omega
          · have hne : (getInterior (toks ++ [t]) body i).2.2 ≠ toks.length := by
              intro he
              rw [he] at h4
              have hget : (toks ++ [t]).getD toks.length dTok = t := by
                rw [List.getD_append_right _ _ _ _ (le_refl _)]
                simp
              rw [hget, ht] at h4
              cases h4
            rw [List.length_append] at h3
            simp only [List.length_cons, List.length_nil] at h3
            omega
      obtain ⟨X', hX'⟩ := ih ((renderStep (toks ++ [t]) body i).2)
        (by omega) hnext
      exact ⟨(renderStep (toks ++ [t]) body i).1 ++ X',
        by rw [hX', List.append_assoc]⟩

/-- When some opening delimiter is never closed, the spec-modelled lexer
ends with a literal `Text` token holding every byte from some position at
or before that delimiter to the end of the buffer. -/
theorem lexSpecAux_unterminated (body : List Char) (p : Nat)
    (hopen : openAtB body p = true)
    (hnoclose : ∀ q, q < body.length → p < q → closeAtB body q = false) :
    ∀ (n pos : Nat), body.length - pos ≤ n → pos ≤ p →
      ∃ pre u, lexSpecAux body pos =
        pre ++ [⟨"tText", body.drop u, u, body.length⟩] ∧ u ≤ p := by
  intro n
  induction n with
  | zero =>
    intro pos h0 hpp
    have hpl := openAtB_len body p hopen
    omega
  | succ n ih =>
    intro pos hn hpp
    have hpl := openAtB_len body p hopen
    have hposl : pos < body.length := by omega
    rw [lexSpecAux, dif_pos hposl]
    split
    next heq =>
      exfalso
      have h1 := findDelim_none openAtB body pos heq p hpp (by omega)
      rw [hopen] at h1
      cases h1
    next p' heq =>
      obtain ⟨hp1, hp2, hp3⟩ := findDelim_some openAtB body pos p' heq
      have hple : p' ≤ p := by
        obtain ⟨p'', h1, h2⟩ := findDelim_min openAtB body pos p hpp
          (by omega) hopen
        rw [heq] at h1
        cases h1
        exact h2
      split
      next heq2 =>
        exact ⟨(if pos < p' then [⟨"tText", seg body pos p', pos, p'⟩]
          else []), p', rfl, hple⟩
      next q heq2 =>
        obtain ⟨hq1, hq2, hq3⟩ := findDelim_some closeAtB body (p' + 3) q heq2
        have hqp : q ≤ p := by
          by_contra hgt
          have h2 := hnoclose q hq2 (by omega)
          rw [hq3] at h2
          cases h2
        have hsep : q + 3 ≤ p := open_close_sep body p q hopen hq3 hqp
        obtain ⟨pre, u, hlex, hule⟩ := ih (q + 3) (by omega) (by omega)
        refine ⟨(if pos < p' then [⟨"tText", seg body pos p', pos, p'⟩]
            else []) ++
          ⟨leftTypAt body p', seg body p' (p' + 3), p', p' + 3⟩ ::
          ((if p' + 3 < q then
              (match trimSpace (seg body (p' + 3) q) with
               | '/' :: _ => [⟨"tScClose", seg body (p' + 3) q, p' + 3, q⟩]
               | _ => [⟨"tScInner", seg body (p' + 3) q, p' + 3, q⟩])
            else []) ++
           ⟨rightTypAt body q, seg body q (q + 3), q, q + 3⟩ :: pre), u,
          ?_, hule⟩
        rw [hlex]
        simp [List.append_assoc]

/-- C2: for every input buffer containing an opening delimiter with no
closing delimiter anywhere after it before buffer end, the conversion
produces an output (no abort), and every byte from the opening delimiter
to the end of the buffer appears at the end of the output as literal
text, unchanged. -/
theorem c2_unterminated_literal_remainder (body : List Char) (p : Nat)
    (hopen : openAtB body p = true)
    (hnoclose : ∀ q, q < body.length → p < q → closeAtB body q = false) :
    ∃ X, convertSpec body = X ++ body.drop p := by
  obtain ⟨pre, u, hlex, hule⟩ :=
    lexSpecAux_unterminated body p hopen hnoclose body.length 0 (by omega)
      (by omega)
  have hpl := openAtB_len body p hopen
  obtain ⟨X, hX⟩ := renderGo_last_text pre
    ⟨"tText", body.drop u, u, body.length⟩ body rfl pre.length 0 (by omega)
    (by omega)
  have hsplit : body.drop u = (body.take p).drop u ++ body.drop p := by
    conv_lhs => rw [← List.take_append_drop p body]
    rw [List.drop_append_of_le_length]
    simp only [List.length_take]
    omega
  have hconv : convertSpec body =
      renderGo (pre ++ [⟨"tText", body.drop u, u, body.length⟩]) body 0 := by
    simp only [convertSpec, renderToMdoc, lexSpec, hlex]
  refine ⟨X ++ (body.take p).drop u, ?_⟩
  rw [hconv, hX]
  show X ++ body.drop u = _
  rw [hsplit, List.append_assoc]

/-- Witness for C2 at the concrete buffer `ab{{<cd` with the opener at
index 2 and no closer anywhere. -/
theorem c2_unterminated_literal_remainder_witness :
    ∃ X, convertSpec
        ('a' :: 'b' :: '\x7b' :: '\x7b' :: '<' :: 'c' :: 'd' :: []) =
      X ++ ('a' :: 'b' :: '\x7b' :: '\x7b' :: '<' :: 'c' :: 'd' :: []).drop 2 :=
  c2_unterminated_literal_remainder _ 2 (by decide) (by decide)
